import Mathlib

set_option maxRecDepth 100000

/-!
Verification development for the PBIP template materialization engine
(`pbi_automation`): a tool that copies a Power BI project template per CSV
row, renames its artifacts, and rewrites named parameters in one of two
semantic-model serializations (single-file `model.bim` JSON, or multi-file
TMDL text).

Strings are modelled as `List Char`.  The Python regexes of
`utils/tmdl_parser.py` and `core/processor.py` are embedded as deterministic
matchers: each regex there has the form "literal, then greedy
whitespace/character-class runs, each followed by a literal from the
complementary class", so backtracking never changes the match and a
maximal-run scan is exact.  Where this relies on an assumption (for example
that a parameter name does not begin with a whitespace character) a comment
says so.  The filesystem is a finite list of (path, node) entries; paths are
lists of name components relative to some root.
-/

namespace PBIP

/-- Characters of a `String`, the universal text representation here. -/
def cs (s : String) : List Char := s.data

/-- Python regex `\s` (ASCII part; the files handled are ASCII). -/
def isWsChar (c : Char) : Bool :=
  c = ' ' || c = '\t' || c = '\n' || c = '\r' || c = '\x0b' || c = '\x0c'

/-- Python regex `\w` (ASCII part): letters, digits, underscore. -/
def isWordChar (c : Char) : Bool := c.isAlphanum || c = '_'

theorem not_ws_of_word {c : Char} (h : isWordChar c = true) : isWsChar c = false := by
  cases hw : isWsChar c with
  | false => rfl
  | true =>
    exfalso
    simp only [isWsChar, Bool.or_eq_true, decide_eq_true_eq] at hw
    rcases hw with ((((rfl | rfl) | rfl) | rfl) | rfl) | rfl <;> exact absurd h (by decide)

/-- A word character differs from any fixed non-word character. -/
theorem word_ne {c : Char} (h : isWordChar c = true) (d : Char)
    (hd : isWordChar d = false) : c ≠ d := by
  rintro rfl
  rw [h] at hd
  cases hd

/-- `str.endswith` / suffix slicing / `str.lower`, written over the
character list so that the kernel can evaluate them. -/
def strEndsWith (s suffix : String) : Bool := (cs suffix).isSuffixOf (cs s)

def strDropRight (s : String) (k : Nat) : String :=
  String.mk ((cs s).take ((cs s).length - k))

def strToLower (s : String) : String := String.mk ((cs s).map Char.toLower)

/-- `Content` of a file: decodable text, or bytes that fail UTF-8 decoding
(`UnicodeDecodeError` in the source). -/
inductive Content where
  | text (s : List Char)
  | binary (b : List Nat)
deriving DecidableEq, Repr

/-! ## Python `str.replace`

`str.replace(old, new)` replaces every non-overlapping occurrence of `old`
left to right.  For `old = ""` Python inserts `new` at every position.
The non-empty case is written with explicit fuel so that the kernel can
evaluate it; `fuel ≥ length s` always suffices since each step consumes at
least one character. -/

def replFuel (old new : List Char) : Nat → List Char → List Char
  | _, [] => []
  | 0, s => s
  | f + 1, c :: t =>
    if old.isPrefixOf (c :: t) then
      new ++ replFuel old new f ((c :: t).drop old.length)
    else
      c :: replFuel old new f t

/-- Python `s.replace(old, new)`. -/
def strReplace (s old new : List Char) : List Char :=
  if old.isEmpty then
    new ++ s.flatMap (fun c => c :: new)
  else
    replFuel old new s.length s

/-- Python `old in s` (substring containment). -/
def containsSubstr (s old : List Char) : Bool :=
  match s with
  | [] => old.isEmpty
  | _ :: t => old.isPrefixOf s || containsSubstr t old

/-! ## Embedded regex matchers

`TMDLParser` compiles three patterns, and `PBIPProcessor._update_parameters_in_tmdl`
builds a fourth:

* `parameter_pattern`: `source\s*=\s*"([^"]+)"\s*meta\s*\[IsParameterQuery=true[^\]]*\]`
* `table_name_pattern`: `^table\s+(\w+)` (MULTILINE)
* `partition_pattern`: `partition\s+(\w+)\s*=\s*m\s*\n(.*?)(?=\n\w|\n$|\Z)` (MULTILINE|DOTALL)
* `table_pattern`: `table\s+{name}\s*\n.*?source\s*=\s*"([^"]+)"\s*meta\s*\[IsParameterQuery=true` (MULTILINE|DOTALL)

Each greedy run (`\s*`, `\s+`, `\w+`, `[^"]+`, `[^\]]*`) is followed by a
literal from the complementary character class, so the backtracking matcher is
equivalent to taking the maximal run; the two genuinely backtracking pieces
(`\s*\n`, and the lazy body with its lookahead) are embedded by the equivalent
deterministic rule stated at their definitions. -/

/-- Match a literal; returns the remaining suffix. -/
def matchLit : List Char → List Char → Option (List Char)
  | [], s => some s
  | _ :: _, [] => none
  | c :: l, d :: s => if c = d then matchLit l s else none

theorem matchLit_eq_some {l s r : List Char} : matchLit l s = some r ↔ s = l ++ r := by
  induction l generalizing s with
  | nil => simp [matchLit]
  | cons c l ih =>
    cases s with
    | nil => simp [matchLit]
    | cons d t =>
      by_cases h : c = d
      · subst h
        simp [matchLit, ih]
      · simp [matchLit, h, Ne.symm h]

/-- `re.search`-style scan: first position (left to right) where the
position matcher `m` succeeds. -/
def searchM {α : Type} (m : List Char → Option α) : List Char → Option α
  | [] => m []
  | c :: t =>
    match m (c :: t) with
    | some a => some a
    | none => searchM m t

theorem searchM_cons_none {α : Type} {m : List Char → Option α} {c : Char} {t : List Char}
    (h : m (c :: t) = none) : searchM m (c :: t) = searchM m t := by
  simp [searchM, h]

theorem searchM_cons_some {α : Type} {m : List Char → Option α} {c : Char} {t : List Char}
    {a : α} (h : m (c :: t) = some a) : searchM m (c :: t) = some a := by
  simp [searchM, h]

/-- If the matcher fails at every position inside `a`, searching `a ++ b`
is searching `b`. -/
theorem searchM_append_none {α : Type} {m : List Char → Option α} {a b : List Char}
    (h : ∀ s', s' ≠ [] → s' <:+ a → m (s' ++ b) = none) :
    searchM m (a ++ b) = searchM m b := by
  induction a with
  | nil => rfl
  | cons c a' ih =>
    rw [List.cons_append, searchM_cons_none]
    · exact ih (fun s' hne hsuf => h s' hne (hsuf.trans (List.suffix_cons c a')))
    · exact h (c :: a') (by simp) List.suffix_rfl

theorem searchM_some_split {α : Type} {m : List Char → Option α} {s : List Char} {a : α}
    (h : searchM m s = some a) : ∃ pre suf, s = pre ++ suf ∧ m suf = some a := by
  induction s with
  | nil => exact ⟨[], [], rfl, h⟩
  | cons c t ih =>
    cases hm : m (c :: t) with
    | some b =>
      rw [searchM_cons_some hm] at h
      exact ⟨[], c :: t, rfl, hm.trans h⟩
    | none =>
      rw [searchM_cons_none hm] at h
      obtain ⟨pre, suf, hs, hsuf⟩ := ih h
      exact ⟨c :: pre, suf, by rw [hs, List.cons_append], hsuf⟩

/-- `parameter_pattern` tried at one position.  Returns
(whole match, captured value, suffix after the match). -/
def matchParamAt (s : List Char) : Option (List Char × List Char × List Char) :=
  match matchLit (cs "source") s with
  | none => none
  | some s1 =>
    let w1 := s1.takeWhile isWsChar
    match s1.dropWhile isWsChar with
    | '=' :: s2 =>
      let w2 := s2.takeWhile isWsChar
      match s2.dropWhile isWsChar with
      | '"' :: s3 =>
        let v := s3.takeWhile (fun c => !(c = '"'))
        if v.isEmpty then none else
        match s3.dropWhile (fun c => !(c = '"')) with
        | '"' :: s4 =>
          let w3 := s4.takeWhile isWsChar
          match matchLit (cs "meta") (s4.dropWhile isWsChar) with
          | none => none
          | some s5 =>
            let w4 := s5.takeWhile isWsChar
            match matchLit (cs "[IsParameterQuery=true") (s5.dropWhile isWsChar) with
            | none => none
            | some s6 =>
              let w5 := s6.takeWhile (fun c => !(c = ']'))
              match s6.dropWhile (fun c => !(c = ']')) with
              | ']' :: s7 =>
                some (cs "source" ++ w1 ++ '=' :: (w2 ++ '"' :: (v ++ '"' :: (w3 ++
                      cs "meta" ++ w4 ++ cs "[IsParameterQuery=true" ++ w5 ++ [']']))),
                      v, s7)
              | _ => none
        | _ => none
      | _ => none
    | _ => none

/-- All (non-overlapping, left to right) `parameter_pattern` captures:
`finditer` as used by `extract_parameters_from_table`.  Fuel-driven; each
match consumes at least one character, so `length + 1` fuel is exact. -/
def findAllGo : Nat → List Char → List (List Char)
  | 0, _ => []
  | f + 1, s =>
    match searchM matchParamAt s with
    | none => []
    | some (_, v, rest) => v :: findAllGo f rest

def findAllParams (s : List Char) : List (List Char) := findAllGo (s.length + 1) s

theorem findAllGo_nil (f : Nat) : findAllGo f [] = [] := by
  cases f <;> rfl

/-- `table_name_pattern` (`^table\s+(\w+)`, MULTILINE) tried at one
line-start position. -/
def matchTableNameAt (s : List Char) : Option (List Char) :=
  match matchLit (cs "table") s with
  | none => none
  | some s1 =>
    let w := s1.takeWhile isWsChar
    if w.isEmpty then none else
    let n := (s1.dropWhile isWsChar).takeWhile isWordChar
    if n.isEmpty then none else some n

/-- Scan for line-start positions (just after a newline). -/
def tableNameAfterNl : List Char → Option (List Char)
  | [] => none
  | c :: t =>
    if c = '\n' then
      match matchTableNameAt t with
      | some n => some n
      | none => tableNameAfterNl t
    else tableNameAfterNl t

/-- `table_name_pattern.search`: position 0, then after each newline. -/
def tableNameSearch (s : List Char) : Option (List Char) :=
  match matchTableNameAt s with
  | some n => some n
  | none => tableNameAfterNl s

/-- Split a list at its last newline: `run = before ++ '\n' :: after`. -/
def splitLastNl : List Char → Option (List Char × List Char)
  | [] => none
  | c :: t =>
    match splitLastNl t with
    | some (b, a) => some (c :: b, a)
    | none => if c = '\n' then some ([], t) else none

/-- The lookahead `(?=\n\w|\n$|\Z)` of `partition_pattern` (MULTILINE, so
`$` matches before a newline or at the end). -/
def lookaheadOk : List Char → Bool
  | [] => true
  | '\n' :: t =>
    match t with
    | [] => true
    | c :: _ => isWordChar c || c = '\n'
  | _ => false

/-- Lazy `(.*?)` before the lookahead: shortest body. -/
def lazyBody : List Char → List Char × List Char
  | [] => ([], [])
  | c :: t =>
    if lookaheadOk (c :: t) then ([], c :: t)
    else
      let p := lazyBody t
      (c :: p.1, p.2)

/-- `partition_pattern` tried at one position.  Returns
(captured name, whole match, suffix after the match).  Greedy `\s*` before
the mandatory `\n` backtracks to the last newline of the whitespace run;
the run's remainder then belongs to the lazy DOTALL body, and since `\Z`
always offers a lookahead position no further backtracking occurs. -/
def matchPartitionAt (s : List Char) : Option (List Char × List Char × List Char) :=
  match matchLit (cs "partition") s with
  | none => none
  | some s1 =>
    let w1 := s1.takeWhile isWsChar
    if w1.isEmpty then none else
    let s2 := s1.dropWhile isWsChar
    let pname := s2.takeWhile isWordChar
    if pname.isEmpty then none else
    let s3 := s2.dropWhile isWordChar
    let w2 := s3.takeWhile isWsChar
    match s3.dropWhile isWsChar with
    | '=' :: s4 =>
      let w3 := s4.takeWhile isWsChar
      match s4.dropWhile isWsChar with
      | 'm' :: s5 =>
        let run := s5.takeWhile isWsChar
        match splitLastNl run with
        | none => none
        | some (before, after) =>
          let p := lazyBody (after ++ s5.dropWhile isWsChar)
          some (pname,
                cs "partition" ++ w1 ++ pname ++ w2 ++ '=' :: (w3 ++
                  'm' :: (before ++ '\n' :: p.1)),
                p.2)
      | _ => none
    | _ => none

/-- The trailing part of `_update_parameters_in_tmdl`'s `table_pattern`
(`source\s*=\s*"([^"]+)"\s*meta\s*\[IsParameterQuery=true`) tried at one
position; returns the captured value. -/
def matchSourceMetaAt (s : List Char) : Option (List Char) :=
  match matchLit (cs "source") s with
  | none => none
  | some s1 =>
    match s1.dropWhile isWsChar with
    | '=' :: s2 =>
      match s2.dropWhile isWsChar with
      | '"' :: s3 =>
        let v := s3.takeWhile (fun c => !(c = '"'))
        if v.isEmpty then none else
        match s3.dropWhile (fun c => !(c = '"')) with
        | '"' :: s4 =>
          match matchLit (cs "meta") (s4.dropWhile isWsChar) with
          | none => none
          | some s5 =>
            match matchLit (cs "[IsParameterQuery=true") (s5.dropWhile isWsChar) with
            | none => none
            | some _ => some v
        | _ => none
      | _ => none
    | _ => none

/-- Split a list at its first newline. -/
def splitFirstNl : List Char → Option (List Char × List Char)
  | [] => none
  | c :: t =>
    if c = '\n' then some ([], t)
    else (splitFirstNl t).map (fun p => (c :: p.1, p.2))

/-- `table_pattern` (`table\s+{name}\s*\n.*?` + source part, DOTALL) tried
at one position.  Assumes the parameter name does not begin with whitespace
(CSV headers are stripped), so `\s+` splits uniquely; `\s*\n` requires a
newline inside the whitespace run after the name, and because the source
part begins with the non-whitespace letter `s`, resuming just after the
first such newline captures exactly the value Python's backtracking finds. -/
def matchTableValueAt (name : List Char) (s : List Char) : Option (List Char) :=
  match matchLit (cs "table") s with
  | none => none
  | some s1 =>
    let w := s1.takeWhile isWsChar
    if w.isEmpty then none else
    match matchLit name (s1.dropWhile isWsChar) with
    | none => none
    | some s2 =>
      match splitFirstNl (s2.takeWhile isWsChar) with
      | none => none
      | some (_, after) => searchM matchSourceMetaAt (after ++ s2.dropWhile isWsChar)

/-- `re.search(table_pattern, content)`'s captured group. -/
def tablePatternSearch (name s : List Char) : Option (List Char) :=
  searchM (matchTableValueAt name) s

/-! ## Filesystem model

A directory tree is a finite list of entries `(path, node)`; a path is the
list of name components relative to the tree's root.  List order stands for
the (deterministic but unspecified) enumeration order of `glob`/`rglob`/
`iterdir`. -/

abbrev Path := List String

inductive Node where
  | file (c : Content)
  | dir
deriving DecidableEq, Repr

abbrev FS := List (Path × Node)

/-- `pathlib.Path.exists()` (never raises, also under a missing parent). -/
def existsNode (fs : FS) (p : Path) : Bool :=
  fs.any (fun e => e.1 = p)

/-- First entry at a path, if any. -/
def lookupNode (fs : FS) (p : Path) : Option Node :=
  (fs.find? (fun e => e.1 = p)).map (fun e => e.2)

/-- Strip a leading path, if it is one. -/
def stripPre : Path → Path → Option Path
  | [], q => some q
  | _ :: _, [] => none
  | a :: p, b :: q => if a = b then stripPre p q else none

/-- `TMDLParser.detect_model_format(semantic_model_path)`. -/
def detect_model_format (fs : FS) (p : Path) : String :=
  if existsNode fs (p ++ ["model.bim"]) then "bim"
  else if existsNode fs (p ++ ["definition"]) &&
          existsNode fs (p ++ ["definition", "model.tmdl"]) then "tmdl"
  else "unknown"

/-- `pathlib.PurePath.stem` for a `*.tmdl` glob hit. -/
def tmdlStem (n : String) : Option String :=
  if strEndsWith n ".tmdl" then some (strDropRight n 5) else none

/-- `TMDLParser.find_parameter_tables(semantic_model_path)`: the stems of
the `definition/tables/*.tmdl` files whose content has a
`parameter_pattern` match.  Directories matching the glob and undecodable
files raise and are logged-and-skipped in the source. -/
def find_parameter_tables (fs : FS) (p : Path) : List String :=
  fs.filterMap (fun e =>
    match stripPre (p ++ ["definition", "tables"]) e.1 with
    | some [n] =>
      match e.2 with
      | Node.file (Content.text c) =>
        match tmdlStem n with
        | some stem => if (searchM matchParamAt c).isSome then some stem else none
        | none => none
      | _ => none
    | _ => none)

/-- Python dict assignment `d[k] = v` on an insertion-ordered assoc list. -/
def dictSet {α β : Type} [BEq α] (d : List (α × β)) (k : α) (v : β) : List (α × β) :=
  if (d.lookup k).isSome then d.map (fun e => if e.1 == k then (k, v) else e)
  else d ++ [(k, v)]

/-- `TMDLParser.extract_parameters_from_table` on a file's text: one dict
entry per `parameter_pattern` match, keyed by the (single) table name. -/
def extract_parameters_from_table (content : List Char) : List (List Char × List Char) :=
  (findAllParams content).foldl
    (fun d v =>
      match tableNameSearch content with
      | some n => dictSet d n v
      | none => d)
    []

/-- `TMDLParser.update_parameter_in_table` on a file's text; `none` is the
source's `False` (wrong table, or no parameter expression). -/
def update_parameter_in_table (content paramName newValue : List Char) : Option (List Char) :=
  match tableNameSearch content with
  | none => none
  | some n =>
    if n ≠ paramName then none
    else
      match searchM matchParamAt content with
      | none => none
      | some (g0, _, _) =>
        let newExpr := cs "source = \"" ++ newValue ++
          cs "\" meta [IsParameterQuery=true, Type=\"Text\", IsParameterQueryRequired=true]"
        match searchM matchPartitionAt content with
        | some (pname, oldPart, _) =>
          some (strReplace content oldPart
            (cs "partition " ++ pname ++ cs " = m\n\tmode: import\n\t" ++ newExpr))
        | none => some (strReplace content g0 newExpr)

/-- `TMDLParser.get_all_parameters(semantic_model_path)`. -/
def get_all_parameters (fs : FS) (p : Path) : List (List Char × List Char) :=
  (find_parameter_tables fs p).foldl
    (fun acc stem =>
      match lookupNode fs (p ++ ["definition", "tables", stem ++ ".tmdl"]) with
      | some (Node.file (Content.text c)) =>
        (extract_parameters_from_table c).foldl (fun a e => dictSet a e.1 e.2) acc
      | _ => acc)
    []

/-! ## Multi-file rewriter (`PBIPProcessor._update_parameters_in_tmdl`)

Operates on the semantic-model subtree.  `rglob('*.tmdl')` hits are the
file entries whose final component ends in `.tmdl` (a directory hit fails
to `open` and is skipped by the per-file handler). -/

def isTmdlFile (q : Path) : Bool :=
  match q.getLast? with
  | some n => strEndsWith n ".tmdl"
  | none => false

/-- The current-value scan: first `.tmdl` file (in enumeration order) whose
text matches `table_pattern` for this parameter name. -/
def findCurrentValue : FS → List Char → Option (List Char)
  | [], _ => none
  | e :: t, name =>
    match e with
    | (q, Node.file (Content.text c)) =>
      if isTmdlFile q then
        match tablePatternSearch name c with
        | some v => some v
        | none => findCurrentValue t name
      else findCurrentValue t name
    | _ => findCurrentValue t name

/-- One iteration of the outer loop of `_update_parameters_in_tmdl`: look
up the parameter's current value and, unless missing or already equal,
replace it by the new value in every `.tmdl` file. -/
def updateTmdlStep (sm : FS) (kv : List Char × List Char) : FS :=
  match findCurrentValue sm kv.1 with
  | none => sm
  | some cur =>
    if cur = kv.2 then sm
    else
      sm.map (fun e =>
        match e with
        | (q, Node.file (Content.text c)) =>
          if isTmdlFile q then
            if containsSubstr c cur then (q, Node.file (Content.text (strReplace c cur kv.2)))
            else e
          else e
        | _ => e)

/-- A CSV row's field mapping (`DataRow.data`), insertion-ordered. -/
abbrev Row := List (String × String)

/-- `PBIPProcessor._update_parameters_in_tmdl` (which always reports
success; its return value is not modelled here). -/
def update_parameters_in_tmdl (sm : FS) (row : Row) : FS :=
  row.foldl (fun fs kv => updateTmdlStep fs (cs kv.1, cs kv.2)) sm

/-! ## JSON (`json.loads` / `json.dumps(indent=2)`)

`model.bim`, the `.pbip` descriptor and `.platform` are JSON.  Numbers are
embedded as integers (the modelled flows carry no floats); `\u` escapes
outside the BMP (surrogate pairs) are not modelled.  The parser is
fuel-driven (`length + 1` fuel is exact: every recursive call first consumes
at least one character) so that the kernel can evaluate it. -/

inductive Json where
  | null
  | bool (b : Bool)
  | num (n : Int)
  | str (s : List Char)
  | arr (xs : List Json)
  | obj (fields : List (List Char × Json))

def isJsonWs (c : Char) : Bool := c = ' ' || c = '\t' || c = '\n' || c = '\r'

def hexVal (c : Char) : Option Nat :=
  if '0' ≤ c ∧ c ≤ '9' then some (c.toNat - 48)
  else if 'a' ≤ c ∧ c ≤ 'f' then some (c.toNat - 87)
  else if 'A' ≤ c ∧ c ≤ 'F' then some (c.toNat - 55)
  else none

def escDecode (e : Char) : Option Char :=
  if e = '"' then some '"'
  else if e = '\\' then some '\\'
  else if e = '/' then some '/'
  else if e = 'b' then some '\x08'
  else if e = 'f' then some '\x0c'
  else if e = 'n' then some '\n'
  else if e = 'r' then some '\r'
  else if e = 't' then some '\t'
  else none

/-- JSON string body after the opening quote. -/
def jstringGo : Nat → List Char → Option (List Char × List Char)
  | 0, _ => none
  | _, [] => none
  | f + 1, c :: t =>
    if c = '"' then some ([], t)
    else if c = '\\' then
      match t with
      | [] => none
      | e :: r =>
        if e = 'u' then
          match r with
          | a :: b :: c2 :: d :: r2 =>
            match hexVal a, hexVal b, hexVal c2, hexVal d with
            | some x1, some x2, some x3, some x4 =>
              (jstringGo f r2).map (fun p =>
                (Char.ofNat (((x1 * 16 + x2) * 16 + x3) * 16 + x4) :: p.1, p.2))
            | _, _, _, _ => none
          | _ => none
        else
          match escDecode e with
          | some ch => (jstringGo f r).map (fun p => (ch :: p.1, p.2))
          | none => none
    else (jstringGo f t).map (fun p => (c :: p.1, p.2))

/-- JSON integer literal (floats rejected; unused by the modelled files). -/
def jnum (s : List Char) : Option (Json × List Char) :=
  let neg := match s with | '-' :: _ => true | _ => false
  let s1 := match s with | '-' :: t => t | _ => s
  let ds := s1.takeWhile Char.isDigit
  if ds.isEmpty then none
  else
    match s1.dropWhile Char.isDigit with
    | '.' :: _ => none
    | 'e' :: _ => none
    | 'E' :: _ => none
    | rest =>
      let n : Nat := ds.foldl (fun a c => a * 10 + (c.toNat - 48)) 0
      some (Json.num (if neg then -(n : Int) else (n : Int)), rest)

/-- Value / object-field-list / array-item-list parsers at each fuel level
(a fuel-indexed tuple instead of mutual recursion, so the kernel reduces
it). -/
def jparsers : Nat →
    (List Char → Option (Json × List Char)) ×
    (List Char → Option (List (List Char × Json) × List Char)) ×
    (List Char → Option (List Json × List Char))
  | 0 => (fun _ => none, fun _ => none, fun _ => none)
  | f + 1 =>
    let pv := (jparsers f).1
    let pf := (jparsers f).2.1
    let pi := (jparsers f).2.2
    ( fun s =>
        match s.dropWhile isJsonWs with
        | [] => none
        | c :: t =>
          if c = '"' then (jstringGo (t.length + 1) t).map (fun p => (Json.str p.1, p.2))
          else if c = '\x7b' then
            match t.dropWhile isJsonWs with
            | '\x7d' :: r => some (Json.obj [], r)
            | _ => (pf t).map (fun p => (Json.obj p.1, p.2))
          else if c = '[' then
            match t.dropWhile isJsonWs with
            | ']' :: r => some (Json.arr [], r)
            | _ => (pi t).map (fun p => (Json.arr p.1, p.2))
          else if c = 'n' then (matchLit (cs "ull") t).map (fun r => (Json.null, r))
          else if c = 't' then (matchLit (cs "rue") t).map (fun r => (Json.bool true, r))
          else if c = 'f' then (matchLit (cs "alse") t).map (fun r => (Json.bool false, r))
          else jnum (c :: t),
      fun s =>
        match s.dropWhile isJsonWs with
        | '"' :: t =>
          match jstringGo (t.length + 1) t with
          | none => none
          | some (k, r1) =>
            match r1.dropWhile isJsonWs with
            | ':' :: r2 =>
              match pv r2 with
              | none => none
              | some (v, r3) =>
                match r3.dropWhile isJsonWs with
                | ',' :: r4 => (pf r4).map (fun p => ((k, v) :: p.1, p.2))
                | '\x7d' :: r4 => some ([(k, v)], r4)
                | _ => none
            | _ => none
        | _ => none,
      fun s =>
        match pv s with
        | none => none
        | some (v, r1) =>
          match r1.dropWhile isJsonWs with
          | ',' :: r2 => (pi r2).map (fun p => (v :: p.1, p.2))
          | ']' :: r2 => some ([v], r2)
          | _ => none )

/-- `json.loads` (succeeds only if nothing but whitespace remains). -/
def jsonParse (s : List Char) : Option Json :=
  match (jparsers (s.length + 1)).1 s with
  | some (j, r) => if (r.dropWhile isJsonWs).isEmpty then some j else none
  | none => none

/-- `json.dumps` escaping of one character (`ensure_ascii=True`). -/
def hexDig (n : Nat) : Char :=
  if n < 10 then Char.ofNat (48 + n) else Char.ofNat (87 + n)

def escChar (c : Char) : List Char :=
  if c = '"' then ['\\', '"']
  else if c = '\\' then ['\\', '\\']
  else if c = '\n' then ['\\', 'n']
  else if c = '\t' then ['\\', 't']
  else if c = '\r' then ['\\', 'r']
  else if c = '\x08' then ['\\', 'b']
  else if c = '\x0c' then ['\\', 'f']
  else if c.toNat < 0x20 || c.toNat > 0x7e then
    let n := c.toNat
    ['\\', 'u', hexDig (n / 4096 % 16), hexDig (n / 256 % 16), hexDig (n / 16 % 16),
     hexDig (n % 16)]
  else [c]

def jstr (s : List Char) : List Char := '"' :: s.flatMap escChar ++ ['"']

def spaces (n : Nat) : List Char := List.replicate n ' '

mutual

/-- `json.dumps(x, indent=2)` at nesting level `ind`. -/
def jsonDump : Nat → Json → List Char
  | _, Json.null => cs "null"
  | _, Json.bool true => cs "true"
  | _, Json.bool false => cs "false"
  | _, Json.num i => cs (toString i)
  | _, Json.str s => jstr s
  | _, Json.arr [] => cs "[]"
  | ind, Json.arr (x :: xs) =>
    '[' :: '\n' :: (jsonDumpItems (ind + 1) (x :: xs) ++ '\n' :: (spaces (2 * ind) ++ [']']))
  | _, Json.obj [] => ['\x7b', '\x7d']
  | ind, Json.obj (f :: fs) =>
    '\x7b' :: '\n' :: (jsonDumpFields (ind + 1) (f :: fs) ++ '\n' :: (spaces (2 * ind) ++ ['\x7d']))

def jsonDumpItems : Nat → List Json → List Char
  | _, [] => []
  | ind, [x] => spaces (2 * ind) ++ jsonDump ind x
  | ind, x :: y :: xs =>
    spaces (2 * ind) ++ jsonDump ind x ++ ',' :: '\n' :: jsonDumpItems ind (y :: xs)

def jsonDumpFields : Nat → List (List Char × Json) → List Char
  | _, [] => []
  | ind, [(k, v)] => spaces (2 * ind) ++ jstr k ++ ':' :: ' ' :: jsonDump ind v
  | ind, (k, v) :: g :: fs =>
    spaces (2 * ind) ++ jstr k ++ ':' :: ' ' :: jsonDump ind v ++
      ',' :: '\n' :: jsonDumpFields ind (g :: fs)

end

/-! ## Reference replacement (`PBIPProcessor._replace_references_in_files`) -/

/-- `pathlib.PurePath.suffix` (empty for no dot, a leading dot, or a
trailing dot). -/
def pySuffix (n : String) : String :=
  let l := n.data
  let tail := l.reverse.takeWhile (fun c => !(c = '.'))
  if tail.length = l.length then ""
  else if tail.length = 0 then ""
  else if l.length - tail.length - 1 = 0 then ""
  else String.mk ('.' :: tail.reverse)

def binaryExts : List String :=
  [".abf", ".bin", ".exe", ".dll", ".so", ".dylib", ".pyd", ".pyc", ".pyo"]

/-- The special `.platform` branch: parse as JSON; if `metadata.displayName`
exists, overwrite that field wholesale and re-serialize; if the JSON does
not parse, fall back to plain substring replacement.  When `metadata` is
present but not an object, or `displayName` is reached through a non-object,
CPython raises `TypeError` (propagated, aborting the batch); those corners
are left at "unchanged" here and no theorem relies on them. -/
def replacePlatform (old new content : List Char) : List Char :=
  match jsonParse content with
  | none => if containsSubstr content old then strReplace content old new else content
  | some j =>
    match j with
    | Json.obj fields =>
      match fields.lookup (cs "metadata") with
      | some (Json.obj mfields) =>
        if (mfields.lookup (cs "displayName")).isSome then
          jsonDump 0 (Json.obj (dictSet fields (cs "metadata")
            (Json.obj (dictSet mfields (cs "displayName") (Json.str new)))))
        else content
      | some _ => content
      | none => content
    | _ => content

/-- One file of the recursive walk: binary extensions skipped, undecodable
contents skipped, `.platform` special-cased, otherwise plain substring
replacement (written only when changed, which leaves the same content). -/
def replaceRefsEntry (old new : List Char) (e : Path × Node) : Path × Node :=
  match e with
  | (q, Node.file c) =>
    match q.getLast? with
    | some n =>
      if binaryExts.contains (strToLower (pySuffix n)) then e
      else
        match c with
        | Content.binary _ => e
        | Content.text t =>
          if n = ".platform" then (q, Node.file (Content.text (replacePlatform old new t)))
          else if containsSubstr t old then
            (q, Node.file (Content.text (strReplace t old new)))
          else e
    | none => e
  | _ => e

def replace_references_in_files (folder : FS) (old new : List Char) : FS :=
  folder.map (replaceRefsEntry old new)

/-! ## Single-file rewriter content transform and `.pbip` descriptor edit -/

/-- `row.data` lookup by a parameter name taken from JSON text. -/
def rowLookup (row : Row) (s : List Char) : Option String :=
  (row.find? (fun kv => cs kv.1 = s)).map (fun kv => kv.2)

/-- The fixed single-file literal encoding written by
`_update_parameters_in_model_bim`. -/
def newBimExpr (v : List Char) : List Char :=
  '"' :: v ++ cs "\" meta [IsParameterQuery=true, Type=\"Any\", IsParameterQueryRequired=true]"

/-- One iteration of the expression-list loop of
`_update_parameters_in_model_bim`: replace the `expression` field when the
expression's `name` is a row key, and record whether anything matched.
(A non-object list element would raise `AttributeError` in CPython; the
modelled files have object entries.) -/
def bimExprStep (row : Row) (acc : List Json × Bool) (e : Json) : List Json × Bool :=
  match e with
  | Json.obj fields =>
    match fields.lookup (cs "name") with
    | some (Json.str s) =>
      match rowLookup row s with
      | some v =>
        (acc.1 ++ [Json.obj (dictSet fields (cs "expression")
          (Json.str (newBimExpr (cs v))))], true)
      | none => (acc.1 ++ [e], acc.2)
    | _ => (acc.1 ++ [e], acc.2)
  | _ => (acc.1 ++ [e], acc.2)

def bimApplyExprs (row : Row) (xs : List Json) : List Json × Bool :=
  xs.foldl (bimExprStep row) ([], false)

/-- Whether one expression entry is applicable to the row. -/
def exprMatches (row : Row) (e : Json) : Bool :=
  match e with
  | Json.obj fields =>
    match fields.lookup (cs "name") with
    | some (Json.str s) => (rowLookup row s).isSome
    | _ => false
  | _ => false

/-- Content transform of `_update_parameters_in_model_bim`: `none` is a
parse failure (the call returns `False`); `some content` with no match is
the warning-level no-op (nothing written). -/
def update_bim_content (row : Row) (content : List Char) : Option (List Char) :=
  match jsonParse content with
  | none => none
  | some (Json.obj fields) =>
    let mf := match fields.lookup (cs "model") with
      | some (Json.obj mf) => mf
      | _ => []
    let xs := match mf.lookup (cs "expressions") with
      | some (Json.arr xs) => xs
      | _ => []
    let r := bimApplyExprs row xs
    if r.2 then
      some (jsonDump 0 (Json.obj (dictSet fields (cs "model") (Json.obj
        (dictSet mf (cs "expressions") (Json.arr r.1))))))
    else some content
  | some _ => none

/-- `"report" in artifact` for one artifact entry of the `.pbip`
descriptor (dict-key membership; CPython raises `TypeError` on numeric
entries — unmodelled, no theorem relies on it). -/
def artifactKeep (a : Json) : Bool :=
  match a with
  | Json.obj f => (f.lookup (cs "report")).isSome
  | Json.str s => containsSubstr s (cs "report")
  | Json.arr xs => xs.any (fun x => match x with | Json.str t => t = cs "report" | _ => false)
  | _ => false

/-- The `.pbip` edit at the end of `_rename_internal_files_and_folders`:
re-serialize, substring-replace the identifier, re-parse, and keep only
report artifacts.  `none` = a parse error (caught and logged; file kept). -/
def update_pbip_content (old new content : List Char) : Option (List Char) :=
  match jsonParse content with
  | none => none
  | some j =>
    match jsonParse (strReplace (jsonDump 0 j) old new) with
    | some (Json.obj f) =>
      let arts := match f.lookup (cs "artifacts") with
        | some (Json.arr xs) => xs
        | _ => []
      some (jsonDump 0 (Json.obj (dictSet f (cs "artifacts")
        (Json.arr (arts.filter artifactKeep)))))
    | _ => none

/-! ## Template materializer (`PBIPProcessor.process_row`) on the output
subtree -/

/-- `DataRow.get_folder_name`. -/
def get_folder_name (row : Row) : String :=
  match row.lookup "Report_Name" with
  | some r => r
  | none =>
    ((row.lookup "Name").getD "Unknown") ++ "_" ++ ((row.lookup "Owner").getD "Unknown")

/-- The template-identifier scan over `output_folder.iterdir()`: first
top-level entry that is a `*.Report` directory or a `*.pbip` file. -/
def findTemplateName : FS → Option String
  | [] => none
  | (q, nd) :: t =>
    match q with
    | [n] =>
      match nd with
      | Node.dir => if strEndsWith n ".Report" then some (strDropRight n 7) else findTemplateName t
      | Node.file _ => if strEndsWith n ".pbip" then some (strDropRight n 5) else findTemplateName t
    | _ => findTemplateName t

/-- `Path.rename` of one top-level entry (directory contents move with
it), guarded by an existence check as in the source. -/
def renameTop (sub : FS) (old new : String) : FS :=
  if existsNode sub [old] then
    sub.map (fun e =>
      match e.1 with
      | q0 :: rest => if q0 = old then (new :: rest, e.2) else e
      | [] => e)
  else sub

def setNode (fs : FS) (p : Path) (nd : Node) : FS :=
  fs.map (fun e => if e.1 = p then (p, nd) else e)

/-- `PBIPProcessor._rename_internal_files_and_folders` on the output
subtree: derive the template identifier, rename the three artifacts,
rewrite references, then filter the `.pbip` artifact list. -/
def renameInternal (sub : FS) (reportName : String) : FS :=
  match findTemplateName sub with
  | none => sub
  | some t =>
    let s1 := renameTop sub (t ++ ".pbip") (reportName ++ ".pbip")
    let s2 := renameTop s1 (t ++ ".Report") (reportName ++ ".Report")
    let s3 := renameTop s2 (t ++ ".SemanticModel") (reportName ++ ".SemanticModel")
    let s4 := replace_references_in_files s3 (cs t) (cs reportName)
    match lookupNode s4 [reportName ++ ".pbip"] with
    | some (Node.file (Content.text c)) =>
      match update_pbip_content (cs t) (cs reportName) c with
      | some c2 => setNode s4 [reportName ++ ".pbip"] (Node.file (Content.text c2))
      | none => s4
    | _ => s4

/-- Extract the subtree under a path (entries rebased). -/
def subtreeOf (fs : FS) (p : Path) : FS :=
  fs.filterMap (fun e => (stripPre p e.1).map (fun r => (r, e.2)))

/-- Delete `<model>/.pbi/cache.abf` if present
(`PBIPProcessor._delete_cache_file`). -/
def deleteCache (sub : FS) (smPath : Path) : FS :=
  sub.filter (fun e => decide (e.1 ≠ smPath ++ [".pbi", "cache.abf"]))

/-- Steps 2–6 of `process_row` after the copy, as a function of the copied
template subtree; the Bool is the row's success.  All reads and writes of
the source happen under the output folder, which this subtree is. -/
def pipeline (template : FS) (row : Row) : FS × Bool :=
  let folderName := get_folder_name row
  let reportName := (row.lookup "Report_Name").getD folderName
  let sub1 := renameInternal template reportName
  let sub2 :=
    match findTemplateName sub1 with
    | some t => replace_references_in_files sub1 (cs t) (cs reportName)
    | none => sub1
  let smPath := [reportName ++ ".SemanticModel"]
  let fmt := detect_model_format sub2 smPath
  if fmt = "bim" then
    match lookupNode sub2 (smPath ++ ["model.bim"]) with
    | some (Node.file (Content.text c)) =>
      match update_bim_content row c with
      | some c2 =>
        (deleteCache (setNode sub2 (smPath ++ ["model.bim"]) (Node.file (Content.text c2)))
          smPath, true)
      | none => (sub2, false)
    | _ => (sub2, false)
  else if fmt = "tmdl" then
    let sm2 := update_parameters_in_tmdl (subtreeOf sub2 smPath) row
    let sub3 := sub2.map (fun e =>
      match stripPre smPath e.1 with
      | some rel => ((sm2.find? (fun x => x.1 = rel)).map (fun x => (e.1, x.2))).getD e
      | none => e)
    (deleteCache sub3 smPath, true)
  else (sub2, false)

/-- Install a subtree at a path, wholesale (`shutil.rmtree` if present,
then `shutil.copytree`). -/
def replaceSubtree (fs : FS) (p : Path) (sub : FS) : FS :=
  fs.filter (fun e => decide (¬ p <+: e.1)) ++ sub.map (fun e => (p ++ e.1, e.2))

/-- `process_row`'s effect on the filesystem: the output folder
`outputDir/folderName` is deleted, rebuilt from the template, and rewritten
in place; nothing else is touched. -/
def processRowFS (fs : FS) (templatePath outputDir : Path) (row : Row) : FS :=
  let out := outputDir ++ [get_folder_name row]
  replaceSubtree fs out (pipeline (subtreeOf fs templatePath) row).1

/-! ## Exception flow

The success/failure logic of `process_row`, `process_data` and
`_update_parameters_in_model_bim` over the outcomes of their callees.
Exception classes that the handlers distinguish: `OSError` (also covering
`shutil.Error`), `json.JSONDecodeError` (a `ValueError` subclass, hence
caught by `except ValueError`), other `ValueError`s (also covering
`UnicodeDecodeError`), and everything else. -/

inductive PyExc where
  | osError
  | valueError
  | jsonDecodeError
  | otherExc
deriving DecidableEq, Repr

/-- `_copy_pbip_folder`: `except (OSError, shutil.Error)` returns `False`,
anything else is re-raised. -/
def copyStep (inner : Except PyExc Bool) : Except PyExc Bool :=
  match inner with
  | .ok b => .ok b
  | .error PyExc.osError => .ok false
  | .error e => .error e

/-- `_rename_internal_files_and_folders`: `except (OSError, ValueError,
json.JSONDecodeError)` only logs; anything else is re-raised. -/
def renameStep (inner : Except PyExc Unit) : Except PyExc Unit :=
  match inner with
  | .ok _ => .ok ()
  | .error PyExc.osError => .ok ()
  | .error PyExc.valueError => .ok ()
  | .error PyExc.jsonDecodeError => .ok ()
  | .error e => .error e

/-- `_update_parameters_in_model_bim`'s handlers: `except (OSError,
json.JSONDecodeError)` returns `False`; anything else is re-raised. -/
def bimStep (inner : Except PyExc Bool) : Except PyExc Bool :=
  match inner with
  | .ok b => .ok b
  | .error PyExc.osError => .ok false
  | .error PyExc.jsonDecodeError => .ok false
  | .error e => .error e

/-- `_update_parameters_in_tmdl`'s outer handler re-raises everything
(per-file errors are swallowed inside the loops). -/
def tmdlStep (inner : Except PyExc Bool) : Except PyExc Bool := inner

/-- `_delete_cache_file`: `except OSError` returns `False`; anything else
is re-raised. -/
def delCacheStep (inner : Except PyExc Bool) : Except PyExc Bool :=
  match inner with
  | .ok b => .ok b
  | .error PyExc.osError => .ok false
  | .error e => .error e

/-- Outcomes of the callees of one `process_row` run. -/
structure RowSteps where
  copyInner : Except PyExc Bool
  renameInner : Except PyExc Unit
  scanResult : Except PyExc (Option String)
  replaceRefsResult : Except PyExc Unit
  fmt : String
  bimInner : Except PyExc Bool
  tmdlInner : Except PyExc Bool
  delCacheInner : Except PyExc Bool

/-- The `try` body of `process_row` (lines 56–103). -/
def process_row_body (s : RowSteps) : Except PyExc Bool := do
  let c ← copyStep s.copyInner
  if !c then return false
  let _ ← renameStep s.renameInner
  let tname ← s.scanResult
  let _ ← if tname.isSome then s.replaceRefsResult else .ok ()
  if s.fmt = "bim" then
    let b ← bimStep s.bimInner
    if !b then return false
  else if s.fmt = "tmdl" then
    let b ← tmdlStep s.tmdlInner
    if !b then return false
  else
    return false
  let _ ← delCacheStep s.delCacheInner
  return true

/-- `process_row`: `except (OSError, ValueError)` returns `False`,
anything else is re-raised. -/
def process_row (s : RowSteps) : Except PyExc Bool :=
  match process_row_body s with
  | .ok b => .ok b
  | .error PyExc.osError => .ok false
  | .error PyExc.valueError => .ok false
  | .error PyExc.jsonDecodeError => .ok false
  | .error e => .error e

/-- `process_data`'s loop: anticipated exceptions are logged and the loop
continues; an unanticipated exception is logged and re-raised. -/
def process_data_go {α : Type} (step : α → Except PyExc Bool) :
    List α → Nat → Except PyExc Nat
  | [], acc => .ok acc
  | r :: rs, acc =>
    match step r with
    | .ok true => process_data_go step rs (acc + 1)
    | .ok false => process_data_go step rs acc
    | .error PyExc.osError => process_data_go step rs acc
    | .error PyExc.valueError => process_data_go step rs acc
    | .error PyExc.jsonDecodeError => process_data_go step rs acc
    | .error PyExc.otherExc => .error PyExc.otherExc

/-- `PBIPProcessor.process_data`: the per-row materializer is abstracted
as `step` (the source calls `self.process_row`). -/
def process_data {α : Type} (step : α → Except PyExc Bool) (rows : List α) :
    Except PyExc Nat :=
  process_data_go step rows 0

/-- The expression list `model_data.get("model", {}).get("expressions", [])`. -/
def bimExprsOf (j : Json) : List Json :=
  let fields := match j with | Json.obj f => f | _ => []
  let mf := match fields.lookup (cs "model") with
    | some (Json.obj mf) => mf
    | _ => []
  match mf.lookup (cs "expressions") with
  | some (Json.arr xs) => xs
  | _ => []

/-- `_update_parameters_in_model_bim` over the outcome of
`json.load` (`readRes`) and of the final write (`writeRes`); when no
expression matched, the file is not written at all and the call still
succeeds. -/
def update_model_bim (readRes : Except PyExc Json) (writeRes : Except PyExc Unit)
    (row : Row) : Except PyExc Bool :=
  match readRes with
  | .error PyExc.osError => .ok false
  | .error PyExc.jsonDecodeError => .ok false
  | .error e => .error e
  | .ok j =>
    let r := bimApplyExprs row (bimExprsOf j)
    if !r.2 then .ok true
    else
      match writeRes with
      | .ok _ => .ok true
      | .error PyExc.osError => .ok false
      | .error PyExc.jsonDecodeError => .ok false
      | .error e => .error e

/-! ## CSV loader (`models/data.py`)

`csv.DictReader` keys every data row by the header's field names: a short
row is padded with the `restval` (`None`), the overflow of a long row is
collected in a list under the `restkey` (`None`).  Blank records are
skipped.  A record is a list of already-split field strings (CSV quoting
is below this model). -/

inductive CsvCell where
  | s (v : String)
  | null
  | rest (vs : List String)
deriving DecidableEq, Repr

/-- One `DictReader` row: `dict(zip(fieldnames, row))` plus padding or
overflow (header names assumed pairwise distinct). -/
def dictReaderRow (fieldnames record : List String) : List (Option String × CsvCell) :=
  let base := (fieldnames.zip (record.map CsvCell.s)).map (fun kv => (some kv.1, kv.2))
  if record.length < fieldnames.length then
    base ++ (fieldnames.drop record.length).map (fun k => (some k, CsvCell.null))
  else if fieldnames.length < record.length then
    base ++ [(Option.none, CsvCell.rest (record.drop fieldnames.length))]
  else base

/-- Python `str.strip()`. -/
def pyStrip (l : List Char) : List Char :=
  ((l.dropWhile isWsChar).reverse.dropWhile isWsChar).reverse

/-- `clean_column_name`: strip BOM artifacts and surrounding whitespace. -/
def clean_column_name (s : String) : String :=
  String.mk (pyStrip (strReplace (strReplace (cs s) (cs "﻿") []) (cs "ï»¿") []))

inductive LoadOutcome where
  | ok (rows : List (List (String × CsvCell)))
  | schemaError
  | propagatedError
deriving DecidableEq, Repr

/-- The row loop of `load_data_from_csv`: clean the keys (an overflow row
has the key `None`, on which `clean_column_name` raises `AttributeError`,
re-raised by the bare `except Exception` — `propagatedError`), compare the
column list with the first row's, and fail the whole load on mismatch
(`ValueError` → the descriptive `RuntimeError` — `schemaError`). -/
def loadGo (header : List String) :
    List (List String) → Option (List String) → List (List (String × CsvCell)) → LoadOutcome
  | [], _, acc => .ok acc
  | rec :: rest, expected, acc =>
    if rec.isEmpty then loadGo header rest expected acc
    else
      let d := dictReaderRow header rec
      if d.any (fun kv => kv.1 = Option.none) then .propagatedError
      else
        let cleaned := d.foldl
          (fun acc2 kv =>
            match kv.1 with
            | some k => dictSet acc2 (clean_column_name k) kv.2
            | Option.none => acc2)
          []
        let cols := cleaned.map (fun kv => kv.1)
        match expected with
        | Option.none => loadGo header rest (some cols) (acc ++ [cleaned])
        | some exp =>
          if cols = exp then loadGo header rest (some exp) (acc ++ [cleaned])
          else .schemaError

/-- `load_data_from_csv` over the split records (header first). -/
def load_data_from_csv (records : List (List String)) : LoadOutcome :=
  match records with
  | [] => .ok []
  | header :: body => loadGo header body Option.none []


/-- The `source = "<v>" meta [...]` parameter expression written by
`update_parameter_in_table` (its `new_source_expression`). -/
def srcExpr (v : List Char) : List Char :=
  cs "source = \"" ++ v ++
    cs "\" meta [IsParameterQuery=true, Type=\"Text\", IsParameterQueryRequired=true]"

/-- The `partition <name> = m` clause written by `update_parameter_in_table`
(its `new_partition`), also the canonical template shape. -/
def partitionClause (name v : List Char) : List Char :=
  cs "partition " ++ name ++ cs " = m\n\tmode: import\n\t" ++ srcExpr v

/-- A canonical parameter-table `.tmdl` file for table `name` holding
value `v`. -/
def paramTableFile (name v : List Char) : List Char :=
  cs "table " ++ name ++ cs "\n\n\t" ++ partitionClause name v

/-! # Theorems -/

theorem existsNode_iff {fs : FS} {q : Path} :
    existsNode fs q = true ↔ ∃ nd, (q, nd) ∈ fs := by
  simp only [existsNode, List.any_eq_true, decide_eq_true_eq]
  constructor
  · rintro ⟨e, he, h1⟩
    exact ⟨e.2, by rwa [← h1, Prod.mk.eta]⟩
  · rintro ⟨nd, h⟩
    exact ⟨(q, nd), h, rfl⟩

/-- C5.  Format Detector: `bim` exactly when `model.bim` exists directly
under the directory; otherwise `tmdl` exactly when the `definition`
subdirectory and its `model.tmdl` both exist; otherwise `unknown`; and a
directory with no entries at all (in particular a non-existent one) yields
`unknown` — the function is total, nothing is raised. -/
theorem detect_model_format_spec (fs : FS) (p : Path) :
    (detect_model_format fs p = "bim" ↔ existsNode fs (p ++ ["model.bim"]) = true) ∧
    (existsNode fs (p ++ ["model.bim"]) = false →
      (detect_model_format fs p = "tmdl" ↔
        existsNode fs (p ++ ["definition"]) = true ∧
        existsNode fs (p ++ ["definition", "model.tmdl"]) = true)) ∧
    (existsNode fs (p ++ ["model.bim"]) = false →
      (existsNode fs (p ++ ["definition"]) = false ∨
        existsNode fs (p ++ ["definition", "model.tmdl"]) = false) →
      detect_model_format fs p = "unknown") ∧
    ((∀ e ∈ fs, ¬ p <+: e.1) → detect_model_format fs p = "unknown") := by
  have s1 : ¬ (("unknown" : String) = "bim") := by decide
  have s2 : ¬ (("tmdl" : String) = "bim") := by decide
  have s3 : ¬ (("unknown" : String) = "tmdl") := by decide
  have s4 : ¬ (("bim" : String) = "tmdl") := by decide
  refine ⟨?_, ?_, ?_, ?_⟩
  · cases h1 : existsNode fs (p ++ ["model.bim"]) <;>
    cases h2 : existsNode fs (p ++ ["definition"]) <;>
    cases h3 : existsNode fs (p ++ ["definition", "model.tmdl"]) <;>
      simp [detect_model_format, h1, h2, h3, s1, s2]
  · intro hb
    cases h2 : existsNode fs (p ++ ["definition"]) <;>
    cases h3 : existsNode fs (p ++ ["definition", "model.tmdl"]) <;>
      simp [detect_model_format, hb, h2, h3, s3, s4]
  · intro hb hor
    cases h2 : existsNode fs (p ++ ["definition"]) <;>
    cases h3 : existsNode fs (p ++ ["definition", "model.tmdl"]) <;>
      simp_all [detect_model_format]
  · intro h
    have hnone : ∀ n : String, existsNode fs (p ++ [n]) = false := by
      intro n
      cases hx : existsNode fs (p ++ [n]) with
      | false => rfl
      | true =>
        obtain ⟨nd, hmem⟩ := existsNode_iff.1 hx
        exact absurd ⟨[n], rfl⟩ (h _ hmem)
    have hnone2 : existsNode fs (p ++ ["definition", "model.tmdl"]) = false := by
      cases hx : existsNode fs (p ++ ["definition", "model.tmdl"]) with
      | false => rfl
      | true =>
        obtain ⟨nd, hmem⟩ := existsNode_iff.1 hx
        exact absurd ⟨["definition", "model.tmdl"], rfl⟩ (h _ hmem)
    unfold detect_model_format
    simp [hnone, hnone2]

/-- C5 witness: a concrete empty directory detects as `unknown`, and a
concrete `model.bim` detects as `bim`. -/
theorem detect_model_format_spec_witness :
    detect_model_format [] ["T.SemanticModel"] = "unknown" ∧
    detect_model_format [(["T.SemanticModel", "model.bim"],
      Node.file (Content.text (cs "x")))] ["T.SemanticModel"] = "bim" := by
  constructor
  · exact (detect_model_format_spec [] ["T.SemanticModel"]).2.2.2 (by simp)
  · exact (detect_model_format_spec _ ["T.SemanticModel"]).1.2 (by decide)

/-- C7.  The schema check of `load_data_from_csv` cannot fire:
`csv.DictReader` keys every data row by the header's field names.  A second
row with fewer columns is silently padded with `None` and the load
*succeeds with both rows* (the spec demands a descriptive failure with zero
rows), and a second row with extra columns dies on the `None` restkey with
an `AttributeError` that the loader re-raises (not the descriptive schema
error). -/
theorem load_csv_schema_check_dead :
    load_data_from_csv [["a", "b"], ["1", "2"], ["3"]] =
      LoadOutcome.ok [[("a", CsvCell.s "1"), ("b", CsvCell.s "2")],
        [("a", CsvCell.s "3"), ("b", CsvCell.null)]] ∧
    load_data_from_csv [["a", "b"], ["1", "2"], ["1", "2", "3"]] =
      LoadOutcome.propagatedError := by
  exact ⟨rfl, rfl⟩

instance {ε α : Type} [DecidableEq ε] [DecidableEq α] : DecidableEq (Except ε α) :=
  fun x y =>
    match x, y with
    | .ok a, .ok b => if h : a = b then .isTrue (by rw [h]) else .isFalse (by simp [h])
    | .error e, .error f => if h : e = f then .isTrue (by rw [h]) else .isFalse (by simp [h])
    | .ok _, .error _ => .isFalse (by simp)
    | .error _, .ok _ => .isFalse (by simp)

theorem process_data_go_ok {α : Type} (step : α → Except PyExc Bool) (rows : List α)
    (h : ∀ r ∈ rows, step r ≠ .error PyExc.otherExc) (acc : Nat) :
    process_data_go step rows acc =
      .ok (acc + rows.countP (fun r => step r = .ok true)) := by
  induction rows generalizing acc with
  | nil => simp [process_data_go]
  | cons r rs ih =>
    have hr := h r (List.mem_cons_self r rs)
    have hrest := fun x hx => h x (List.mem_cons_of_mem r hx)
    rw [List.countP_cons]
    cases hs : step r with
    | ok b =>
      cases b
      · simp only [process_data_go, hs, ih hrest]
        simp [hs]
      · simp only [process_data_go, hs, ih hrest]
        simp only [hs, Except.ok.injEq]
        simp
        omega
    | error e =>
      cases e
      · simp only [process_data_go, hs, ih hrest]
        simp [hs]
      · simp only [process_data_go, hs, ih hrest]
        simp [hs]
      · simp only [process_data_go, hs, ih hrest]
        simp [hs]
      · exact absurd hs hr

theorem process_data_go_abort {α : Type} (step : α → Except PyExc Bool) :
    ∀ (pre : List α) (r : α) (post : List α) (acc : Nat),
      step r = .error PyExc.otherExc →
      process_data_go step (pre ++ r :: post) acc = .error PyExc.otherExc := by
  intro pre
  induction pre with
  | nil =>
    intro r post acc h
    simp [process_data_go, h]
  | cons q pre ih =>
    intro r post acc h
    rw [List.cons_append]
    cases hq : step q with
    | ok b =>
      cases b <;> simp only [process_data_go, hq] <;> exact ih r post _ h
    | error e =>
      cases e <;> simp only [process_data_go, hq]
      · exact ih r post _ h
      · exact ih r post _ h
      · exact ih r post _ h

/-- C4.  Batch Driver: when no row raises an unanticipated exception,
`process_data` walks the rows in order, swallows anticipated
(OSError/ValueError-class) per-row exceptions, and returns exactly the
number of successfully materialized rows; any row raising an unanticipated
exception aborts the whole batch by re-raising. -/
theorem process_data_spec {α : Type} (step : α → Except PyExc Bool) :
    (∀ rows : List α, (∀ r ∈ rows, step r ≠ .error PyExc.otherExc) →
      process_data step rows = .ok (rows.countP (fun r => step r = .ok true))) ∧
    (∀ (pre : List α) (r : α) (post : List α), step r = .error PyExc.otherExc →
      process_data step (pre ++ r :: post) = .error PyExc.otherExc) := by
  constructor
  · intro rows h
    rw [process_data, process_data_go_ok step rows h 0, Nat.zero_add]
  · intro pre r post h
    exact process_data_go_abort step pre r post 0 h

/-- C4 witness: a concrete batch mixing success, failure, and an anticipated
error yields the success count; one with an unanticipated error aborts. -/
theorem process_data_spec_witness :
    process_data (fun x : Nat =>
        if x = 0 then (.ok true : Except PyExc Bool)
        else if x = 1 then .ok false
        else if x = 2 then .error PyExc.osError
        else .ok true) [0, 1, 2, 3] = .ok 2 ∧
    process_data (fun x : Nat =>
        if x = 0 then (.ok true : Except PyExc Bool)
        else .error PyExc.otherExc) [0, 1, 2] = .error PyExc.otherExc := by
  constructor
  · rw [(process_data_spec _).1 [0, 1, 2, 3] (by decide)]
    decide
  · exact (process_data_spec _).2 [0] 1 [2] (by decide)

@[simp] theorem exbind_ok {ε τ σ : Type} (a : τ) (f : τ → Except ε σ) :
    (Except.ok a : Except ε τ) >>= f = f a := rfl

@[simp] theorem exbind_error {ε τ σ : Type} (e : ε) (f : τ → Except ε σ) :
    (Except.error e : Except ε τ) >>= f = Except.error e := rfl

@[simp] theorem expure_eq_ok {ε τ : Type} (a : τ) :
    (pure a : Except ε τ) = Except.ok a := rfl

theorem exbind_congr {ε τ σ : Type} (x : Except ε τ) (f g : τ → Except ε σ)
    (h : ∀ a, f a = g a) : x >>= f = x >>= g := by
  cases x with
  | error e => rfl
  | ok a => exact h a

theorem renameStep_ok (ri : Except PyExc Unit) (h : ri ≠ .error PyExc.otherExc) :
    renameStep ri = .ok () := by
  match ri with
  | .ok () => rfl
  | .error PyExc.osError => rfl
  | .error PyExc.valueError => rfl
  | .error PyExc.jsonDecodeError => rfl
  | .error PyExc.otherExc => exact absurd rfl h

/-- C2.  Template Materializer `process_row` returns success iff the
template-copy step and the parameter-rewrite step (under a recognized
model format) both succeeded; an unknown format fails the row; rename
failures of any anticipated class never change the outcome; and cache
deletion failing (or reporting `False`) never changes the outcome.  The
auxiliary hypotheses say the bookkeeping steps themselves did not raise
unanticipated exceptions. -/
theorem process_row_spec (s : RowSteps)
    (hrn : s.renameInner ≠ .error PyExc.otherExc)
    (hsc : ∃ o, s.scanResult = .ok o)
    (hrr : s.replaceRefsResult = .ok ())
    (hdc : s.delCacheInner = .ok true ∨ s.delCacheInner = .ok false ∨
      s.delCacheInner = .error PyExc.osError) :
    (process_row s = .ok true ↔
      s.copyInner = .ok true ∧
      ((s.fmt = "bim" ∧ bimStep s.bimInner = .ok true) ∨
        (s.fmt = "tmdl" ∧ tmdlStep s.tmdlInner = .ok true))) ∧
    (∀ e : PyExc, e ≠ PyExc.otherExc →
      process_row { s with renameInner := .error e } =
        process_row { s with renameInner := .ok () }) ∧
    (process_row { s with delCacheInner := .error PyExc.osError } =
      process_row { s with delCacheInner := .ok true }) ∧
    (process_row { s with delCacheInner := .ok false } =
      process_row { s with delCacheInner := .ok true }) := by
  obtain ⟨o, hsc⟩ := hsc
  obtain ⟨ci, ri, sc, rr, fmt, bi, ti, di⟩ := s
  simp only at hrn hsc hrr hdc
  subst hsc
  subst hrr
  have hst : ¬ (("bim" : String) = "tmdl") := by decide
  have hre : renameStep ri = .ok () := renameStep_ok ri hrn
  obtain ⟨bb, hdel⟩ : ∃ bb, delCacheStep di = .ok bb := by
    rcases hdc with rfl | rfl | rfl <;> exact ⟨_, rfl⟩
  refine ⟨?_, ?_, ?_, ?_⟩
  · cases ci with
    | error e =>
      cases e <;>
        simp [process_row, process_row_body, copyStep, hre, hdel]
    | ok b =>
      cases b
      · simp [process_row, process_row_body, copyStep]
      · by_cases hf1 : fmt = "bim"
        · subst hf1
          cases bi with
          | error e =>
            cases e <;>
              simp [process_row, process_row_body, copyStep, hre, hdel, bimStep, hst]
          | ok b2 =>
            cases b2 <;>
              simp [process_row, process_row_body, copyStep, hre, hdel, bimStep, hst]
        · by_cases hf2 : fmt = "tmdl"
          · subst hf2
            cases ti with
            | error e =>
              cases e <;>
                simp [process_row, process_row_body, copyStep, hre, hdel, tmdlStep, hst, hf1]
            | ok b2 =>
              cases b2 <;>
                simp [process_row, process_row_body, copyStep, hre, hdel, tmdlStep, hst, hf1]
          · simp [process_row, process_row_body, copyStep, hre, hdel, hf1, hf2]
  · intro e he
    have h1 : renameStep (.error e) = renameStep (.ok ()) := by
      rw [renameStep_ok _ (fun hh => he (Except.error.inj hh))]
      rfl
    simp only [process_row, process_row_body, h1]
  · have hb : ∀ d1 d2 : Except PyExc Bool,
        delCacheStep d1 = .ok false → delCacheStep d2 = .ok true →
        process_row ⟨ci, ri, .ok o, .ok (), fmt, bi, ti, d1⟩ =
          process_row ⟨ci, ri, .ok o, .ok (), fmt, bi, ti, d2⟩ := by
      intro d1 d2 h1 h2
      have hbody : process_row_body ⟨ci, ri, .ok o, .ok (), fmt, bi, ti, d1⟩ =
          process_row_body ⟨ci, ri, .ok o, .ok (), fmt, bi, ti, d2⟩ := by
        simp only [process_row_body]
        refine exbind_congr _ _ _ (fun c => ?_)
        cases c
        · rfl
        · refine exbind_congr _ _ _ (fun u => ?_)
          refine exbind_congr _ _ _ (fun tname => ?_)
          simp only [ite_self, exbind_ok]
          split
          · refine exbind_congr _ _ _ (fun b => ?_)
            cases b
            · rfl
            · simp [h1, h2]
          · split
            · refine exbind_congr _ _ _ (fun b => ?_)
              cases b
              · rfl
              · simp [h1, h2]
            · rfl
      simp only [process_row, hbody]
    exact hb _ _ rfl rfl
  · have hb : ∀ d1 d2 : Except PyExc Bool,
        delCacheStep d1 = .ok false → delCacheStep d2 = .ok true →
        process_row ⟨ci, ri, .ok o, .ok (), fmt, bi, ti, d1⟩ =
          process_row ⟨ci, ri, .ok o, .ok (), fmt, bi, ti, d2⟩ := by
      intro d1 d2 h1 h2
      have hbody : process_row_body ⟨ci, ri, .ok o, .ok (), fmt, bi, ti, d1⟩ =
          process_row_body ⟨ci, ri, .ok o, .ok (), fmt, bi, ti, d2⟩ := by
        simp only [process_row_body]
        refine exbind_congr _ _ _ (fun c => ?_)
        cases c
        · rfl
        · refine exbind_congr _ _ _ (fun u => ?_)
          refine exbind_congr _ _ _ (fun tname => ?_)
          simp only [ite_self, exbind_ok]
          split
          · refine exbind_congr _ _ _ (fun b => ?_)
            cases b
            · rfl
            · simp [h1, h2]
          · split
            · refine exbind_congr _ _ _ (fun b => ?_)
              cases b
              · rfl
              · simp [h1, h2]
            · rfl
      simp only [process_row, hbody]
    exact hb _ _ rfl rfl

/-- C2 witness: a concrete run with copy and TMDL rewrite succeeding, cache
deletion failing, is a success; the same run with an unknown format fails. -/
theorem process_row_spec_witness :
    process_row ⟨.ok true, .ok (), .ok (some "T"), .ok (), "tmdl", .ok true, .ok true,
      .error PyExc.osError⟩ = .ok true ∧
    process_row ⟨.ok true, .ok (), .ok (some "T"), .ok (), "unknown", .ok true, .ok true,
      .ok true⟩ ≠ .ok true := by
  constructor
  · exact ((process_row_spec _ (by decide) ⟨some "T", rfl⟩ rfl
      (Or.inr (Or.inr rfl))).1).2 ⟨rfl, Or.inr ⟨rfl, rfl⟩⟩
  · intro h
    have := ((process_row_spec _ (by decide) ⟨some "T", rfl⟩ rfl (Or.inl rfl)).1).1 h
    rcases this.2 with ⟨h1, _⟩ | ⟨h1, _⟩ <;> exact absurd h1 (by decide)

theorem bimExprStep_snd (row : Row) (acc : List Json × Bool) (e : Json) :
    (bimExprStep row acc e).2 = (acc.2 || exprMatches row e) := by
  cases e <;> simp [bimExprStep, exprMatches]
  case obj fields =>
    cases hlk : fields.lookup (cs "name") with
    | none => simp
    | some v =>
      cases v <;> simp
      case str s =>
        cases hrl : rowLookup row s <;> simp [hrl]

theorem bimfold_snd (row : Row) (xs : List Json) :
    ∀ (l : List Json) (b : Bool),
      (xs.foldl (bimExprStep row) (l, b)).2 = (b || xs.any (exprMatches row)) := by
  induction xs with
  | nil => intro l b; simp
  | cons e xs ih =>
    intro l b
    rw [List.foldl_cons]
    have hstep : bimExprStep row (l, b) e =
        ((bimExprStep row (l, b) e).1, b || exprMatches row e) := by
      rw [← bimExprStep_snd row (l, b) e]
    rw [hstep, ih, List.any_cons]
    cases b <;> cases exprMatches row e <;> simp

theorem bimApplyExprs_snd (row : Row) (xs : List Json) :
    (bimApplyExprs row xs).2 = xs.any (exprMatches row) := by
  rw [bimApplyExprs, bimfold_snd]
  rfl

/-- C6.  Single-file rewriter: when zero expressions have a name matching
any row key, the call still returns success (nothing is even written — the
outcome is independent of the write step); and it returns failure exactly
on a read, parse, or write I/O error. -/
theorem update_model_bim_spec (row : Row) :
    (∀ (j : Json) (wr : Except PyExc Unit),
      (∀ e ∈ bimExprsOf j, exprMatches row e = false) →
      update_model_bim (.ok j) wr row = .ok true) ∧
    (∀ (readRes : Except PyExc Json) (wr : Except PyExc Unit),
      update_model_bim readRes wr row = .ok false ↔
        readRes = .error PyExc.osError ∨ readRes = .error PyExc.jsonDecodeError ∨
        (∃ j, readRes = .ok j ∧ (bimExprsOf j).any (exprMatches row) = true ∧
          (wr = .error PyExc.osError ∨ wr = .error PyExc.jsonDecodeError))) := by
  constructor
  · intro j wr h
    have hflag : (bimApplyExprs row (bimExprsOf j)).2 = false := by
      rw [bimApplyExprs_snd]
      exact List.any_eq_false.2 (by simpa using h)
    simp [update_model_bim, hflag]
  · intro readRes wr
    cases readRes with
    | error e =>
      cases e <;> simp [update_model_bim]
    | ok j =>
      simp only [update_model_bim]
      cases hflag : (bimApplyExprs row (bimExprsOf j)).2 with
      | false =>
        have ha : (bimExprsOf j).any (exprMatches row) = false := by
          rw [← bimApplyExprs_snd row (bimExprsOf j)]
          exact hflag
        simp [ha]
        intro x hx hm
        exact absurd hm (List.any_eq_false.mp ha x hx)
      | true =>
        have ha : (bimExprsOf j).any (exprMatches row) = true := by
          rw [← bimApplyExprs_snd row (bimExprsOf j)]
          exact hflag
        cases wr with
        | error e =>
          cases e <;> simp [ha] <;> simpa using List.any_eq_true.mp ha
        | ok u => simp [ha]

/-- C6 witness: a model with one non-matching expression succeeds as a
no-op even when the write step would fail; a matching one with a failing
write fails. -/
theorem update_model_bim_spec_witness :
    update_model_bim
      (.ok (Json.obj [(cs "model", Json.obj [(cs "expressions",
        Json.arr [Json.obj [(cs "name", Json.str (cs "Other"))]])])]))
      (.error PyExc.osError) [("Name", "V")] = .ok true ∧
    update_model_bim
      (.ok (Json.obj [(cs "model", Json.obj [(cs "expressions",
        Json.arr [Json.obj [(cs "name", Json.str (cs "Name"))]])])]))
      (.error PyExc.osError) [("Name", "V")] = .ok false := by
  constructor
  · exact (update_model_bim_spec [("Name", "V")]).1 _ _ (by decide)
  · exact ((update_model_bim_spec [("Name", "V")]).2 _ _).2
      (Or.inr (Or.inr ⟨_, rfl, by decide, Or.inl rfl⟩))

theorem containsSubstr_nil (s : List Char) : containsSubstr s [] = true := by
  cases s <;> simp [containsSubstr, List.isPrefixOf]

theorem replFuel_of_not_contains (old new : List Char) :
    ∀ (c : List Char) (f : Nat), c.length ≤ f → containsSubstr c old = false →
      replFuel old new f c = c := by
  intro c
  induction c with
  | nil => intro f _ _; cases f <;> rfl
  | cons a t ih =>
    intro f hf h
    simp only [containsSubstr, Bool.or_eq_false_iff] at h
    cases f with
    | zero => simp at hf
    | succ f' =>
      rw [replFuel, if_neg (by simp [h.1])]
      have : t.length ≤ f' := by simpa using hf
      rw [ih f' this h.2]

/-- `s.replace(old, new)` is the identity when `old` does not occur. -/
theorem strReplace_of_not_contains {c old new : List Char}
    (h : containsSubstr c old = false) : strReplace c old new = c := by
  have hne : ¬ old.isEmpty = true := by
    intro he
    rw [List.isEmpty_iff.mp he] at h
    rw [containsSubstr_nil] at h
    cases h
  rw [strReplace, if_neg hne]
  exact replFuel_of_not_contains old new c c.length le_rfl h

/-- C1.  Multi-file rewriter: for a row key `(p, v)` whose parameter table
exists (the `table_pattern` scan finds a current literal value `V`) with
`V ≠ v`, processing that key performs `content.replace(V, v)` — replacing
every occurrence of `V` by `v` — in every `.tmdl` file of the
semantic-model folder (not just the owning table file), and touches
nothing else. -/
theorem update_parameters_in_tmdl_global_replace (sm : FS) (p v : String) (V : List Char)
    (hfind : findCurrentValue sm (cs p) = some V)
    (hne : V ≠ cs v) :
    update_parameters_in_tmdl sm [(p, v)] =
      sm.map (fun e =>
        match e with
        | (q, Node.file (Content.text c)) =>
          if isTmdlFile q then (q, Node.file (Content.text (strReplace c V (cs v)))) else e
        | _ => e) := by
  show updateTmdlStep sm (cs p, cs v) = _
  rw [updateTmdlStep, hfind]
  dsimp only
  rw [if_neg hne]
  apply List.map_congr_left
  intro e _
  rcases e with ⟨q, nd⟩
  cases nd with
  | dir => rfl
  | file c =>
    cases c with
    | binary b => rfl
    | text t =>
      by_cases ht : isTmdlFile q = true
      · simp only [ht, if_true]
        by_cases hc : containsSubstr t V = true
        · simp [ht, hc]
        · have hc' : containsSubstr t V = false := by simpa using hc
          simp [ht, hc', strReplace_of_not_contains hc']
      · simp [ht]

/-- C1 witness: updating parameter `City` from `OLD` to `NEW` rewrites the
occurrence of `OLD` inside an unrelated `.tmdl` file as well. -/
theorem update_parameters_in_tmdl_global_replace_witness :
    update_parameters_in_tmdl
      [(["definition", "tables", "City.tmdl"], Node.file (Content.text (cs
        "table City\n\n\tpartition City = m\n\t\tmode: import\n\t\tsource = \"OLD\" meta [IsParameterQuery=true, Type=\"Text\", IsParameterQueryRequired=true]"))),
       (["definition", "tables", "Other.tmdl"], Node.file (Content.text (cs
        "table Other\n/// comment mentioning OLD here\n")))]
      [("City", "NEW")] =
      [(["definition", "tables", "City.tmdl"], Node.file (Content.text (cs
        "table City\n\n\tpartition City = m\n\t\tmode: import\n\t\tsource = \"NEW\" meta [IsParameterQuery=true, Type=\"Text\", IsParameterQueryRequired=true]"))),
       (["definition", "tables", "Other.tmdl"], Node.file (Content.text (cs
        "table Other\n/// comment mentioning NEW here\n")))] := by
  rw [update_parameters_in_tmdl_global_replace _ "City" "NEW" (cs "OLD") (by decide) (by decide)]
  decide

theorem lookup_map_replace_ne {α β : Type} [BEq α] [LawfulBEq α]
    (d : List (α × β)) (k k' : α) (v : β) (h : (k' == k) = false) :
    (d.map (fun e => if e.1 == k then (k, v) else e)).lookup k' = d.lookup k' := by
  induction d with
  | nil => rfl
  | cons e t ih =>
    obtain ⟨k1, v1⟩ := e
    rw [List.map_cons]
    dsimp only
    cases hke : k1 == k with
    | true =>
      have hek : k1 = k := eq_of_beq hke
      subst hek
      rw [if_pos rfl]
      simp only [List.lookup]
      rw [h]
      exact ih
    | false =>
      rw [if_neg (by simp)]
      simp only [List.lookup]
      cases hek : k' == k1 <;> simp [hek, ih]

theorem lookup_append_single_ne {α β : Type} [BEq α] [LawfulBEq α]
    (d : List (α × β)) (k k' : α) (v : β) (h : (k' == k) = false) :
    (d ++ [(k, v)]).lookup k' = d.lookup k' := by
  induction d with
  | nil =>
    simp only [List.nil_append, List.lookup]
    rw [h]
  | cons e t ih =>
    obtain ⟨k1, v1⟩ := e
    rw [List.cons_append]
    simp only [List.lookup]
    cases hek : k' == k1 <;> simp [hek, ih]

/-- `d[k] = v` leaves every other key's binding unchanged. -/
theorem dictSet_lookup_ne {α β : Type} [BEq α] [LawfulBEq α]
    (d : List (α × β)) (k k' : α) (v : β) (h : (k' == k) = false) :
    (dictSet d k v).lookup k' = d.lookup k' := by
  rw [dictSet]
  split
  · exact lookup_map_replace_ne d k k' v h
  · exact lookup_append_single_ne d k k' v h

theorem lookup_map_replace_self {α β : Type} [BEq α] [LawfulBEq α]
    (d : List (α × β)) (k : α) (v : β) (h : (d.lookup k).isSome = true) :
    (d.map (fun e => if e.1 == k then (k, v) else e)).lookup k = some v := by
  induction d with
  | nil => simp [List.lookup] at h
  | cons e t ih =>
    obtain ⟨k1, v1⟩ := e
    rw [List.map_cons]
    dsimp only
    cases hke : k1 == k with
    | true =>
      have hek : k1 = k := eq_of_beq hke
      subst hek
      rw [if_pos rfl]
      simp only [List.lookup]
      rw [beq_self_eq_true]
    | false =>
      have hk1 : (k == k1) = false := by
        cases hkk : k == k1 with
        | false => rfl
        | true => rw [eq_of_beq hkk, beq_self_eq_true] at hke; cases hke
      rw [if_neg (by simp)]
      simp only [List.lookup] at h ⊢
      rw [hk1] at h ⊢
      exact ih h

theorem lookup_append_single_self {α β : Type} [BEq α] [LawfulBEq α]
    (d : List (α × β)) (k : α) (v : β) (h : d.lookup k = none) :
    (d ++ [(k, v)]).lookup k = some v := by
  induction d with
  | nil =>
    simp only [List.nil_append, List.lookup]
    rw [beq_self_eq_true]
  | cons e t ih =>
    obtain ⟨k1, v1⟩ := e
    simp only [List.lookup] at h
    rw [List.cons_append]
    simp only [List.lookup]
    cases hek : k == k1 with
    | true =>
      rw [hek] at h
      simp at h
    | false =>
      rw [hek] at h
      exact ih h

/-- `d[k] = v` binds `k` to `v`. -/
theorem dictSet_lookup_self {α β : Type} [BEq α] [LawfulBEq α]
    (d : List (α × β)) (k : α) (v : β) :
    (dictSet d k v).lookup k = some v := by
  rw [dictSet]
  split
  case isTrue h => exact lookup_map_replace_self d k v h
  case isFalse h =>
    refine lookup_append_single_self d k v ?_
    cases hk : d.lookup k with
    | none => rfl
    | some w => exact absurd (by rw [hk]; rfl) h

/-- C10.  During the reference-replacement pass, a `.platform` file whose
content parses as JSON is modified only in its `metadata.displayName`
field: if the field (or `metadata` itself) is absent, the file is left
byte-for-byte unchanged — no substring replacement is applied even when
the old identifier occurs in its text; if the field is present, the file
becomes the re-serialization of the same document with exactly that one
binding overwritten (all other top-level keys and all other `metadata`
keys keep their bindings). -/
theorem replace_platform_frame (old new content : List Char) (j : Json)
    (hparse : jsonParse content = some j) :
    (∀ q : Path, q.getLast? = some ".platform" →
      replaceRefsEntry old new (q, Node.file (Content.text content)) =
        (q, Node.file (Content.text (replacePlatform old new content)))) ∧
    (∀ fields, j = Json.obj fields →
      (fields.lookup (cs "metadata") = none →
        replacePlatform old new content = content) ∧
      (∀ m, fields.lookup (cs "metadata") = some (Json.obj m) →
        (m.lookup (cs "displayName") = none →
          replacePlatform old new content = content) ∧
        ((m.lookup (cs "displayName")).isSome = true →
          replacePlatform old new content =
            jsonDump 0 (Json.obj (dictSet fields (cs "metadata")
              (Json.obj (dictSet m (cs "displayName") (Json.str new))))) ∧
          (dictSet m (cs "displayName") (Json.str new)).lookup (cs "displayName") =
            some (Json.str new) ∧
          (∀ k, (k == cs "displayName") = false →
            (dictSet m (cs "displayName") (Json.str new)).lookup k = m.lookup k) ∧
          (∀ k, (k == cs "metadata") = false →
            (dictSet fields (cs "metadata") (Json.obj (dictSet m (cs "displayName")
              (Json.str new)))).lookup k = fields.lookup k)))) := by
  constructor
  · intro q hq
    rw [replaceRefsEntry, hq]
    dsimp only
    rw [if_neg (by decide), if_pos rfl]
  · intro fields hj
    subst hj
    constructor
    · intro hmd
      rw [replacePlatform, hparse]
      dsimp only
      rw [hmd]
    · intro m hmd
      constructor
      · intro hdn
        rw [replacePlatform, hparse]
        dsimp only
        rw [hmd]
        dsimp only
        rw [hdn]
        simp
      · intro hdn
        refine ⟨?_, dictSet_lookup_self m (cs "displayName") (Json.str new),
          fun k hk => dictSet_lookup_ne m (cs "displayName") k (Json.str new) hk,
          fun k hk => dictSet_lookup_ne fields (cs "metadata") k _ hk⟩
        rw [replacePlatform, hparse]
        dsimp only
        rw [hmd]
        dsimp only
        rw [if_pos hdn]

/-- C10 witness: a JSON `.platform` file without `metadata.displayName` is
left byte-for-byte unchanged although the old identifier occurs in its
text; one with the field is rewritten only there. -/
theorem replace_platform_frame_witness :
    replacePlatform (cs "Example_PBIP") (cs "New")
      (cs "\x7b\"metadata\": \x7b\"type\": \"Report\"\x7d, \"x\": \"Example_PBIP\"\x7d") =
      cs "\x7b\"metadata\": \x7b\"type\": \"Report\"\x7d, \"x\": \"Example_PBIP\"\x7d" ∧
    containsSubstr (cs "\x7b\"metadata\": \x7b\"type\": \"Report\"\x7d, \"x\": \"Example_PBIP\"\x7d")
      (cs "Example_PBIP") = true ∧
    replacePlatform (cs "Example_PBIP") (cs "New")
      (cs "\x7b\"metadata\": \x7b\"displayName\": \"Example_PBIP\"\x7d\x7d") =
      jsonDump 0 (Json.obj [(cs "metadata",
        Json.obj [(cs "displayName", Json.str (cs "New"))])]) := by
  refine ⟨?_, by decide, ?_⟩
  · exact (((replace_platform_frame (cs "Example_PBIP") (cs "New")
      (cs "\x7b\"metadata\": \x7b\"type\": \"Report\"\x7d, \"x\": \"Example_PBIP\"\x7d")
      (Json.obj [(cs "metadata", Json.obj [(cs "type", Json.str (cs "Report"))]),
        (cs "x", Json.str (cs "Example_PBIP"))]) rfl).2 _ rfl).2
      [(cs "type", Json.str (cs "Report"))] rfl).1 rfl
  · have h := (((replace_platform_frame (cs "Example_PBIP") (cs "New")
      (cs "\x7b\"metadata\": \x7b\"displayName\": \"Example_PBIP\"\x7d\x7d")
      (Json.obj [(cs "metadata", Json.obj [(cs "displayName", Json.str (cs "Example_PBIP"))])])
      rfl).2 _ rfl).2 [(cs "displayName", Json.str (cs "Example_PBIP"))] rfl).2 rfl
    exact h.1

theorem stripPre_eq_some {p : Path} : ∀ {q r : Path}, stripPre p q = some r ↔ q = p ++ r := by
  induction p with
  | nil => intro q r; simp [stripPre]
  | cons a p ih =>
    intro q r
    cases q with
    | nil => simp [stripPre]
    | cons b q =>
      by_cases hab : a = b
      · subst hab
        simp [stripPre, ih]
      · simp [stripPre, hab, Ne.symm hab]

/-- Installing a subtree at a disjoint location does not change the
template's subtree. -/
theorem subtreeOf_replaceSubtree_disjoint (fs S : FS) (out tmpl : Path)
    (h1 : ¬ tmpl <+: out) (h2 : ¬ out <+: tmpl) :
    subtreeOf (replaceSubtree fs out S) tmpl = subtreeOf fs tmpl := by
  have hcomp : ∀ q : Path, tmpl <+: q → out <+: q → False := by
    intro q hq1 hq2
    rcases List.prefix_or_prefix_of_prefix hq1 hq2 with h | h
    · exact h1 h
    · exact h2 h
  rw [replaceSubtree]
  simp only [subtreeOf]
  rw [List.filterMap_append]
  have hmap : (S.map (fun e => (out ++ e.1, e.2))).filterMap
      (fun e => (stripPre tmpl e.1).map (fun r => (r, e.2))) = [] := by
    rw [List.filterMap_map]
    refine List.filterMap_eq_nil_iff.2 (fun e he => ?_)
    cases hs : stripPre tmpl (out ++ e.1) with
    | none => simp [Function.comp, hs]
    | some r =>
      exfalso
      exact hcomp (out ++ e.1) ⟨r, (stripPre_eq_some.1 hs).symm⟩ (out.prefix_append e.1)
  rw [hmap, List.append_nil]
  induction fs with
  | nil => rfl
  | cons e t ih =>
    rw [List.filter_cons]
    by_cases hout : out <+: e.1
    · have hnone : stripPre tmpl e.1 = none := by
        cases hs : stripPre tmpl e.1 with
        | none => rfl
        | some r =>
          exact absurd hout (fun ho => hcomp e.1 ⟨r, (stripPre_eq_some.1 hs).symm⟩ ho)
      rw [if_neg (by simp [hout])]
      rw [ih]
      conv_rhs => rw [List.filterMap_cons]
      simp [hnone, subtreeOf]
    · rw [if_pos (by simp [hout])]
      rw [List.filterMap_cons, List.filterMap_cons]
      cases hs : stripPre tmpl e.1 with
      | none => exact ih
      | some r => exact congrArg (List.cons (r, e.2)) ih

/-- Re-installing a subtree at the same location overwrites it wholesale. -/
theorem replaceSubtree_overwrite (fs S S2 : FS) (p : Path) :
    replaceSubtree (replaceSubtree fs p S) p S2 = replaceSubtree fs p S2 := by
  rw [replaceSubtree, replaceSubtree, replaceSubtree, List.filter_append]
  have h1 : (fs.filter (fun e => decide (¬ p <+: e.1))).filter
      (fun e => decide (¬ p <+: e.1)) = fs.filter (fun e => decide (¬ p <+: e.1)) := by
    rw [List.filter_filter]
    simp
  have h2 : (S.map (fun e => (p ++ e.1, e.2))).filter
      (fun e => decide (¬ p <+: e.1)) = [] := by
    refine List.filter_eq_nil_iff.2 (fun e he => ?_)
    obtain ⟨x, _, rfl⟩ := List.mem_map.1 he
    simp [List.prefix_append]
  rw [h1, h2, List.append_nil]

/-- C9.  Idempotence of the materializer's filesystem effect: the output
folder is wholly deleted and rebuilt from the template, and every rewrite
step is a deterministic function of the template subtree and the row, so
running `process_row` a second time with the same template, row and output
directory reproduces the filesystem (in particular the output folder's
contents byte for byte), provided the template does not live inside the
output folder nor vice versa. -/
theorem processRowFS_idempotent (fs : FS) (templatePath outputDir : Path) (row : Row)
    (h1 : ¬ templatePath <+: outputDir ++ [get_folder_name row])
    (h2 : ¬ (outputDir ++ [get_folder_name row]) <+: templatePath) :
    processRowFS (processRowFS fs templatePath outputDir row) templatePath outputDir row =
      processRowFS fs templatePath outputDir row := by
  rw [processRowFS, processRowFS]
  rw [subtreeOf_replaceSubtree_disjoint fs _ (outputDir ++ [get_folder_name row])
    templatePath h1 h2]
  exact replaceSubtree_overwrite fs _ _ _

theorem takeWhile_append_stop {p : Char → Bool} :
    ∀ {a : List Char} (b : Char) (r : List Char), (∀ c ∈ a, p c = true) → p b = false →
      (a ++ b :: r).takeWhile p = a ∧ (a ++ b :: r).dropWhile p = b :: r := by
  intro a
  induction a with
  | nil =>
    intro b r _ hb
    simp [List.takeWhile_cons, List.dropWhile_cons, hb]
  | cons c t ih =>
    intro b r ha hb
    have hc : p c = true := ha c (List.mem_cons_self c t)
    have := ih b r (fun x hx => ha x (List.mem_cons_of_mem c hx)) hb
    simp [List.takeWhile_cons, List.dropWhile_cons, hc, this.1, this.2]

theorem matchLit_append (l r : List Char) : matchLit l (l ++ r) = some r :=
  matchLit_eq_some.2 rfl

/-- The regex language of `parameter_pattern`'s whole match:
`source\s*=\s*"([^"]+)"\s*meta\s*\[IsParameterQuery=true[^\]]*\]`. -/
def paramShape (g0 v : List Char) : Prop :=
  ∃ w1 w2 w3 w4 w5 : List Char,
    (∀ c ∈ w1, isWsChar c = true) ∧ (∀ c ∈ w2, isWsChar c = true) ∧
    (∀ c ∈ w3, isWsChar c = true) ∧ (∀ c ∈ w4, isWsChar c = true) ∧
    (∀ c ∈ w5, c ≠ ']') ∧ v ≠ [] ∧ (∀ c ∈ v, c ≠ '"') ∧
    g0 = cs "source" ++ w1 ++ '=' :: (w2 ++ '"' :: (v ++ '"' :: (w3 ++
      cs "meta" ++ w4 ++ cs "[IsParameterQuery=true" ++ w5 ++ [']'])))

/-- C9 witness: a concrete second run reproduces the first run's result. -/
theorem processRowFS_idempotent_witness :
    processRowFS
      (processRowFS [(["tpl"], Node.dir), (["tpl", "a.txt"], Node.file (Content.text (cs "hi")))]
        ["tpl"] ["out"] [("Report_Name", "R")])
      ["tpl"] ["out"] [("Report_Name", "R")] =
    processRowFS [(["tpl"], Node.dir), (["tpl", "a.txt"], Node.file (Content.text (cs "hi")))]
      ["tpl"] ["out"] [("Report_Name", "R")] := by
  refine processRowFS_idempotent _ ["tpl"] ["out"] [("Report_Name", "R")] ?_ ?_ <;> decide

/-- Success of the `parameter_pattern` position matcher yields the regex
decomposition. -/
theorem matchParamAt_sound {s g0 v rest : List Char}
    (h : matchParamAt s = some (g0, v, rest)) :
    s = g0 ++ rest ∧ paramShape g0 v := by
  unfold matchParamAt at h
  repeat' split at h
  any_goals exact Option.noConfusion h
  any_goals
    first
    | exact Option.noConfusion h
    | (dsimp only at h; rw [ite_self] at h; exact Option.noConfusion h)
  rename_i x6 s1 h1 x5 s2 h2 x4 s3 h3 x3 s4 h4 x2 s5 h5 x1 s6 h6 x0 s7 h7
  dsimp only at h
  by_cases hv : (List.takeWhile (fun c => !decide (c = '"')) s3).isEmpty = true
  · rw [if_pos hv] at h
    exact Option.noConfusion h
  · rw [if_neg hv] at h
    simp only [Option.some.injEq, Prod.mk.injEq] at h
    obtain ⟨hg, hv2, hr⟩ := h
    subst hg
    subst hv2
    subst hr
    have e1 : s = cs "source" ++ s1 := matchLit_eq_some.1 h1
    have e2 : s1 = List.takeWhile isWsChar s1 ++ ('=' :: s2) := by
      conv_lhs => rw [← List.takeWhile_append_dropWhile (p := isWsChar) (l := s1)]
      rw [h2]
    have e3 : s2 = List.takeWhile isWsChar s2 ++ ('"' :: s3) := by
      conv_lhs => rw [← List.takeWhile_append_dropWhile (p := isWsChar) (l := s2)]
      rw [h3]
    have e4 : s3 = List.takeWhile (fun c => !decide (c = '"')) s3 ++ ('"' :: s4) := by
      conv_lhs =>
        rw [← List.takeWhile_append_dropWhile (p := fun c => !decide (c = '"')) (l := s3)]
      rw [h4]
    have e5 : s4 = List.takeWhile isWsChar s4 ++ (cs "meta" ++ s5) := by
      conv_lhs => rw [← List.takeWhile_append_dropWhile (p := isWsChar) (l := s4)]
      rw [matchLit_eq_some.1 h5]
    have e6 : s5 = List.takeWhile isWsChar s5 ++ (cs "[IsParameterQuery=true" ++ s6) := by
      conv_lhs => rw [← List.takeWhile_append_dropWhile (p := isWsChar) (l := s5)]
      rw [matchLit_eq_some.1 h6]
    have e7 : s6 = List.takeWhile (fun c => !decide (c = ']')) s6 ++ (']' :: s7) := by
      conv_lhs =>
        rw [← List.takeWhile_append_dropWhile (p := fun c => !decide (c = ']')) (l := s6)]
      rw [h7]
    have m1 : ∀ c ∈ List.takeWhile isWsChar s1, isWsChar c = true :=
      fun c hc => List.mem_takeWhile_imp hc
    have m2 : ∀ c ∈ List.takeWhile isWsChar s2, isWsChar c = true :=
      fun c hc => List.mem_takeWhile_imp hc
    have m3 : ∀ c ∈ List.takeWhile isWsChar s4, isWsChar c = true :=
      fun c hc => List.mem_takeWhile_imp hc
    have m4 : ∀ c ∈ List.takeWhile isWsChar s5, isWsChar c = true :=
      fun c hc => List.mem_takeWhile_imp hc
    have mv : ∀ c ∈ List.takeWhile (fun c => !decide (c = '"')) s3, c ≠ '"' :=
      fun c hc => by simpa using List.mem_takeWhile_imp hc
    have m5 : ∀ c ∈ List.takeWhile (fun c => !decide (c = ']')) s6, c ≠ ']' :=
      fun c hc => by simpa using List.mem_takeWhile_imp hc
    have hvne : List.takeWhile (fun c => !decide (c = '"')) s3 ≠ [] := by
      intro he
      rw [he] at hv
      exact hv rfl
    set w1 := List.takeWhile isWsChar s1 with hw1
    set w2 := List.takeWhile isWsChar s2 with hw2
    set vv := List.takeWhile (fun c => !decide (c = '"')) s3 with hvv
    set w3 := List.takeWhile isWsChar s4 with hw3
    set w4 := List.takeWhile isWsChar s5 with hw4
    set w5 := List.takeWhile (fun c => !decide (c = ']')) s6 with hw5
    constructor
    · rw [e1, e2, e3, e4, e5, e6, e7]
      simp [List.append_assoc]
    · exact ⟨w1, w2, w3, w4, w5, m1, m2, m3, m4, m5, hvne, mv, rfl⟩

/-- The position matcher succeeds on every decomposition. -/
theorem matchParamAt_complete {g0 v : List Char} (B : List Char) (h : paramShape g0 v) :
    matchParamAt (g0 ++ B) = some (g0, v, B) := by
  obtain ⟨w1, w2, w3, w4, w5, hw1, hw2, hw3, hw4, hw5, hvne, hvq, hg⟩ := h
  subst hg
  have hnorm : (cs "source" ++ w1 ++ '=' :: (w2 ++ '"' :: (v ++ '"' :: (w3 ++
      cs "meta" ++ w4 ++ cs "[IsParameterQuery=true" ++ w5 ++ [']'])))) ++ B =
      cs "source" ++ (w1 ++ '=' :: (w2 ++ '"' :: (v ++ '"' :: (w3 ++
        (cs "meta" ++ (w4 ++ (cs "[IsParameterQuery=true" ++ (w5 ++ ']' :: B)))))))) := by
    simp [List.append_assoc]
  have A1 := takeWhile_append_stop (p := isWsChar) '='
    (w2 ++ '"' :: (v ++ '"' :: (w3 ++ (cs "meta" ++ (w4 ++
      (cs "[IsParameterQuery=true" ++ (w5 ++ ']' :: B))))))) hw1 (by decide)
  have A2 := takeWhile_append_stop (p := isWsChar) '"'
    (v ++ '"' :: (w3 ++ (cs "meta" ++ (w4 ++
      (cs "[IsParameterQuery=true" ++ (w5 ++ ']' :: B)))))) hw2 (by decide)
  have AV := takeWhile_append_stop (p := fun c => !decide (c = '"')) '"'
    (w3 ++ (cs "meta" ++ (w4 ++ (cs "[IsParameterQuery=true" ++ (w5 ++ ']' :: B)))))
    (fun c hc => by simpa using hvq c hc) (by decide)
  have A3 := takeWhile_append_stop (p := isWsChar) 'm'
    (cs "eta" ++ (w4 ++ (cs "[IsParameterQuery=true" ++ (w5 ++ ']' :: B)))) hw3 (by decide)
  have A3' : List.dropWhile isWsChar (w3 ++ (cs "meta" ++ (w4 ++
      (cs "[IsParameterQuery=true" ++ (w5 ++ ']' :: B))))) =
      cs "meta" ++ (w4 ++ (cs "[IsParameterQuery=true" ++ (w5 ++ ']' :: B))) := A3.2
  have A3t : List.takeWhile isWsChar (w3 ++ (cs "meta" ++ (w4 ++
      (cs "[IsParameterQuery=true" ++ (w5 ++ ']' :: B))))) = w3 := A3.1
  have A4 := takeWhile_append_stop (p := isWsChar) '['
    (cs "IsParameterQuery=true" ++ (w5 ++ ']' :: B)) hw4 (by decide)
  have A4' : List.dropWhile isWsChar (w4 ++ (cs "[IsParameterQuery=true" ++
      (w5 ++ ']' :: B))) = cs "[IsParameterQuery=true" ++ (w5 ++ ']' :: B) := A4.2
  have A4t : List.takeWhile isWsChar (w4 ++ (cs "[IsParameterQuery=true" ++
      (w5 ++ ']' :: B))) = w4 := A4.1
  have A5 := takeWhile_append_stop (p := fun c => !decide (c = ']')) ']' B
    (fun c hc => by simpa using hw5 c hc) (by decide)
  have hvemp : v.isEmpty = false := by
    cases v with
    | nil => exact absurd rfl hvne
    | cons a t => rfl
  unfold matchParamAt
  rw [hnorm, matchLit_append]
  simp only [A1.1, A1.2, A2.1, A2.2, AV.1, AV.2, A3', A3t, A4', A4t, A5.1, A5.2,
    matchLit_append, hvemp, Bool.false_eq_true, if_false]

theorem searchM_isSome_append {α : Type} (m : List Char → Option α) (pre suf : List Char)
    (a : α) (hm : m suf = some a) : (searchM m (pre ++ suf)).isSome = true := by
  induction pre with
  | nil =>
    rw [List.nil_append]
    cases suf with
    | nil => simp [searchM, hm]
    | cons c t => rw [searchM_cons_some hm]; rfl
  | cons c pre ih =>
    rw [List.cons_append]
    cases hmc : m (c :: (pre ++ suf)) with
    | some b => rw [searchM_cons_some hmc]; rfl
    | none => rw [searchM_cons_none hmc]; exact ih

/-- C8 (amended).  Multi-file Locator classification: a table file under
`definition/tables` is listed as a parameter table iff its text contains a
substring matching `source = "<value>" meta [IsParameterQuery=true ...]`
(the `parameter_pattern` regex language) — a `partition <name> = m` clause
is not required. -/
theorem find_parameter_tables_spec (fs : FS) (p : Path) (stem : String) :
    stem ∈ find_parameter_tables fs p ↔
      ∃ (n : String) (c : List Char),
        (p ++ ["definition", "tables", n], Node.file (Content.text c)) ∈ fs ∧
        tmdlStem n = some stem ∧
        ∃ A g0 v B, c = A ++ g0 ++ B ∧ paramShape g0 v := by
  rw [find_parameter_tables]
  rw [List.mem_filterMap]
  constructor
  · rintro ⟨⟨q, nd⟩, he, hfe⟩
    dsimp only at hfe
    repeat' split at hfe
    any_goals exact Option.noConfusion hfe
    rename_i x2 n hstrip x1 c x0 stem2 hstem hsome
    injection hfe with hse
    subst hse
    have hq : q = p ++ ["definition", "tables", n] := by
      rw [stripPre_eq_some.1 hstrip]
      simp
    rw [hq] at he
    obtain ⟨x, hx⟩ := Option.isSome_iff_exists.1 hsome
    obtain ⟨g0, v, rest⟩ := x
    obtain ⟨A, suf, hcsplit, hm⟩ := searchM_some_split hx
    obtain ⟨hsuf, hshape⟩ := matchParamAt_sound hm
    refine ⟨n, c, he, hstem, A, g0, v, rest, ?_, hshape⟩
    rw [hcsplit, hsuf, List.append_assoc]
  · rintro ⟨n, c, hmem, hstem, A, g0, v, B, hc, hshape⟩
    refine ⟨(p ++ ["definition", "tables", n], Node.file (Content.text c)), hmem, ?_⟩
    dsimp only
    have hstrip : stripPre (p ++ ["definition", "tables"])
        (p ++ ["definition", "tables", n]) = some [n] := stripPre_eq_some.2 (by simp)
    have hsome : (searchM matchParamAt c).isSome = true := by
      rw [hc, List.append_assoc]
      exact searchM_isSome_append _ A (g0 ++ B) _ (matchParamAt_complete B hshape)
    simp only [hstrip, hstem]
    rw [if_pos hsome]

/-- C8 counterexample: `find_parameter_tables` classifies a file as a
parameter table although its content has no `partition` clause at all (the
word `partition` does not even occur) — the classification tests only the
`source = "<value>" meta [IsParameterQuery=true ...]` pattern, refuting the
claim's "iff ... a `partition <name> = m` clause whose body contains ...". -/
theorem find_parameter_tables_counterexample :
    "NoPart" ∈ find_parameter_tables
      [(["definition", "tables", "NoPart.tmdl"],
        Node.file (Content.text (cs "source = \"x\" meta [IsParameterQuery=true]")))]
      [] ∧
    containsSubstr (cs "source = \"x\" meta [IsParameterQuery=true]") (cs "partition") =
      false :=
  ⟨by decide, by decide⟩

/-- C8 witness: the amended characterization instantiated at a concrete
parameter table. -/
theorem find_parameter_tables_spec_witness :
    "City" ∈ find_parameter_tables
      [(["definition", "tables", "City.tmdl"],
        Node.file (Content.text (cs "source = \"x\" meta [IsParameterQuery=true]")))]
      [] :=
  (find_parameter_tables_spec _ [] "City").2
    ⟨"City.tmdl", cs "source = \"x\" meta [IsParameterQuery=true]", by decide, by decide,
      [], cs "source = \"x\" meta [IsParameterQuery=true]", cs "x", [], by decide,
      ⟨[' '], [' '], [' '], [' '], [],
        by decide, by decide, by decide, by decide, by decide, by decide, by decide,
        by decide⟩⟩

theorem getElem?_mem_char {L : List Char} {n : Nat} {a : Char} (h : L[n]? = some a) :
    a ∈ L := by
  have h2 : n < L.length := by
    by_contra hn
    rw [List.getElem?_eq_none (by omega)] at h
    cases h
  rw [List.getElem?_eq_getElem h2] at h
  exact Option.some.inj h ▸ List.getElem_mem h2

theorem head_mem_of_suffix {c : Char} {t L : List Char} (h : (c :: t) <:+ L) : c ∈ L :=
  h.sublist.subset (List.mem_cons_self c t)

theorem ne_of_mem_of_not_mem {a c : Char} {L : List Char} (hc : c ∈ L) (ha : a ∉ L) :
    ¬ (a = c) := fun h => ha (h ▸ hc)

theorem suffix_append_cases {R : List Char} : ∀ {A : List Char} (B : List Char),
    R <:+ A ++ B → R <:+ B ∨ ∃ S, S ≠ [] ∧ S <:+ A ∧ R = S ++ B := by
  intro A
  induction A with
  | nil => intro B h; exact Or.inl (by simpa using h)
  | cons a A2 ih =>
    intro B h
    rw [List.cons_append, List.suffix_cons_iff] at h
    cases h with
    | inl h => exact Or.inr ⟨a :: A2, by simp, List.suffix_rfl, h⟩
    | inr h =>
      cases ih B h with
      | inl h2 => exact Or.inl h2
      | inr h2 =>
        obtain ⟨S, hS1, hS2, hS3⟩ := h2
        exact Or.inr ⟨S, hS1, hS2.trans (List.suffix_cons a A2), hS3⟩

theorem dropWhile_append_all {p : Char → Bool} {a : List Char} (b : List Char)
    (h : ∀ c ∈ a, p c = true) : (a ++ b).dropWhile p = b.dropWhile p := by
  induction a with
  | nil => rfl
  | cons x t ih =>
    rw [List.cons_append, List.dropWhile_cons, if_pos (h x (List.mem_cons_self x t))]
    exact ih (fun c hc => h c (List.mem_cons_of_mem x hc))

theorem append_head_mem {ns rest L M : List Char} {r0 : Char}
    (he : ns ++ r0 :: rest = L ++ M) (hl : ns.length < L.length) : r0 ∈ L := by
  have h0 : (ns ++ r0 :: rest)[ns.length]? = some r0 := by
    rw [List.getElem?_append_right (le_refl ns.length)]
    simp
  rw [he, List.getElem?_append_left hl] at h0
  exact getElem?_mem_char h0

theorem append_get_mem {L M ns rest : List Char} {i : Nat}
    (he : L ++ M = ns ++ rest) (hiL : i < L.length) (hins : i < ns.length) :
    L.get ⟨i, hiL⟩ ∈ ns := by
  have h0 : (L ++ M)[i]? = some (L.get ⟨i, hiL⟩) := by
    rw [List.getElem?_append_left hiL, List.getElem?_eq_getElem hiL, List.get_eq_getElem]
  rw [he, List.getElem?_append_left hins] at h0
  exact getElem?_mem_char h0

theorem isEmpty_false_of_ne {l : List Char} (h : l ≠ []) : l.isEmpty = false := by
  cases l with
  | nil => exact absurd rfl h
  | cons c t => rfl

theorem searchM_self {α : Type} {m : List Char → Option α} {s : List Char} {a : α}
    (h : m s = some a) : searchM m s = some a := by
  cases s with
  | nil => exact h
  | cons c t => exact searchM_cons_some h

theorem not_word_of_ws {c : Char} (h : isWsChar c = true) : isWordChar c = false := by
  cases hw : isWordChar c with
  | false => rfl
  | true => rw [not_ws_of_word hw] at h; cases h

theorem matchParamAt_sound_prefix {s : List Char}
    (h : matchParamAt s ≠ none) :
    ∃ w1 w2 M, (∀ c ∈ w1, isWsChar c = true) ∧ (∀ c ∈ w2, isWsChar c = true) ∧
      s = cs "source" ++ (w1 ++ '=' :: (w2 ++ '"' :: M)) := by
  cases hm : matchParamAt s with
  | none => exact absurd hm h
  | some a =>
    obtain ⟨g, v, rest⟩ := a
    obtain ⟨hs, w1, w2, w3, w4, w5, hw1, hw2, _, _, _, _, _, hg⟩ := matchParamAt_sound hm
    refine ⟨w1, w2, v ++ '"' :: (w3 ++ cs "meta" ++ w4 ++
      cs "[IsParameterQuery=true" ++ w5 ++ [']']) ++ rest, hw1, hw2, ?_⟩
    rw [hs, hg]
    simp [List.append_assoc]



theorem matchPartitionAt_sound_prefix {s : List Char} {a : List Char × List Char × List Char}
    (h : matchPartitionAt s = some a) :
    ∃ w1 pname w2 M, (∀ c ∈ w1, isWsChar c = true) ∧ w1 ≠ [] ∧
      (∀ c ∈ pname, isWordChar c = true) ∧ pname ≠ [] ∧
      (∀ c ∈ w2, isWsChar c = true) ∧
      s = cs "partition" ++ (w1 ++ (pname ++ (w2 ++ '=' :: M))) := by
  unfold matchPartitionAt at h
  repeat' split at h
  any_goals exact Option.noConfusion h
  dsimp only at h
  repeat' split at h
  any_goals exact Option.noConfusion h
  rename_i x3 s1 h1 hw1 hpn x2 s4 h4 x1 s5 h5 x0 bb aa h6
  refine ⟨List.takeWhile isWsChar s1, List.takeWhile isWordChar (List.dropWhile isWsChar s1),
    List.takeWhile isWsChar (List.dropWhile isWordChar (List.dropWhile isWsChar s1)), s4,
    fun c hc => List.mem_takeWhile_imp hc,
    fun he => hw1 (by rw [he]; rfl),
    fun c hc => List.mem_takeWhile_imp hc,
    fun he => hpn (by rw [he]; rfl),
    fun c hc => List.mem_takeWhile_imp hc, ?_⟩
  rw [matchLit_eq_some.1 h1]
  congr 1
  conv_lhs => rw [← List.takeWhile_append_dropWhile (p := isWsChar) (l := s1)]
  congr 1
  conv_lhs =>
    rw [← List.takeWhile_append_dropWhile (p := isWordChar) (l := List.dropWhile isWsChar s1)]
  congr 1
  conv_lhs =>
    rw [← List.takeWhile_append_dropWhile (p := isWsChar)
      (l := List.dropWhile isWordChar (List.dropWhile isWsChar s1))]
  rw [h4]


theorem append_eq_lit_gt {ns rest L M : List Char}
    (he : ns ++ rest = L ++ M) (hl : L.length < ns.length) :
    ∃ d ds, d ∈ ns ∧ M = d :: (ds ++ rest) := by
  have hd := congrArg (List.drop L.length) he
  rw [List.drop_append_of_le_length (le_of_lt hl), List.drop_left] at hd
  cases hns : ns.drop L.length with
  | nil =>
    rw [List.drop_eq_nil_iff] at hns
    omega
  | cons d ds =>
    refine ⟨d, ds, ?_, ?_⟩
    · have hmem : d ∈ ns.drop L.length := hns ▸ List.mem_cons_self d ds
      exact (List.drop_sublist L.length ns).subset hmem
    · rw [← hd, hns, List.cons_append]

theorem matchParamAt_fail_head {c : Char} (t : List Char) (hc : ¬ c = 's') :
    matchParamAt (c :: t) = none := by
  by_contra hne
  obtain ⟨w1, w2, M, _, _, he⟩ := matchParamAt_sound_prefix hne
  rw [show cs "source" = 's' :: cs "ource" from rfl, List.cons_append] at he
  exact hc (List.cons.inj he).1

theorem matchPartitionAt_fail_head {c : Char} (t : List Char) (hc : ¬ c = 'p') :
    matchPartitionAt (c :: t) = none := by
  cases hm : matchPartitionAt (c :: t) with
  | none => rfl
  | some a =>
    obtain ⟨w1, pname, w2, M, _, _, _, _, _, he⟩ := matchPartitionAt_sound_prefix hm
    rw [show cs "partition" = 'p' :: cs "artition" from rfl, List.cons_append] at he
    exact absurd (List.cons.inj he).1 hc

theorem matchParamAt_fail_wordblock1 (ns X : List Char)
    (h2 : ∀ c ∈ ns, isWordChar c = true) :
    matchParamAt (ns ++ ('\n' :: '\n' :: '\t' :: ('p' :: X))) = none := by
  by_contra hne
  obtain ⟨w1, w2, M, hw1, hw2, he⟩ := matchParamAt_sound_prefix hne
  rcases lt_trichotomy ns.length (cs "source").length with hl | hl | hl
  · have hmem : '\n' ∈ cs "source" := append_head_mem he hl
    exact absurd hmem (by decide)
  · obtain ⟨hns, hrest⟩ := List.append_inj he hl
    have hd := congrArg (List.dropWhile isWsChar) hrest
    rw [dropWhile_append_all _ hw1] at hd
    simp only [List.dropWhile_cons, show isWsChar '\n' = true from rfl,
      show isWsChar '\t' = true from rfl, show isWsChar 'p' = false from rfl,
      show isWsChar '=' = false from rfl, if_true, Bool.false_eq_true, if_false] at hd
    exact absurd (List.cons.inj hd).1 (by decide)
  · obtain ⟨d, ds, hdmem, hM⟩ := append_eq_lit_gt he hl
    have hdws : isWsChar d = false := not_ws_of_word (h2 d hdmem)
    have hd := congrArg (List.dropWhile isWsChar) hM
    rw [dropWhile_append_all _ hw1] at hd
    simp only [List.dropWhile_cons, show isWsChar '=' = false from rfl, hdws,
      Bool.false_eq_true, if_false] at hd
    exact absurd (List.cons.inj hd).1 (word_ne (h2 d hdmem) '=' (by decide)).symm

theorem matchParamAt_fail_wordblock2 (ns X : List Char)
    (h2 : ∀ c ∈ ns, isWordChar c = true) :
    matchParamAt (ns ++ (' ' :: '=' :: ' ' :: 'm' :: X)) = none := by
  by_contra hne
  obtain ⟨w1, w2, M, hw1, hw2, he⟩ := matchParamAt_sound_prefix hne
  rcases lt_trichotomy ns.length (cs "source").length with hl | hl | hl
  · have hmem : ' ' ∈ cs "source" := append_head_mem he hl
    exact absurd hmem (by decide)
  · obtain ⟨hns, hrest⟩ := List.append_inj he hl
    have hd := congrArg (List.dropWhile isWsChar) hrest
    rw [dropWhile_append_all _ hw1] at hd
    simp only [List.dropWhile_cons, show isWsChar ' ' = true from rfl,
      show isWsChar '=' = false from rfl, if_true, Bool.false_eq_true, if_false] at hd
    have hd2 := (List.cons.inj hd).2
    have hd3 := congrArg (List.dropWhile isWsChar) hd2
    rw [dropWhile_append_all _ hw2] at hd3
    simp only [List.dropWhile_cons, show isWsChar ' ' = true from rfl,
      show isWsChar 'm' = false from rfl, show isWsChar '"' = false from rfl,
      if_true, Bool.false_eq_true, if_false] at hd3
    exact absurd (List.cons.inj hd3).1 (by decide)
  · obtain ⟨d, ds, hdmem, hM⟩ := append_eq_lit_gt he hl
    have hdws : isWsChar d = false := not_ws_of_word (h2 d hdmem)
    have hd := congrArg (List.dropWhile isWsChar) hM
    rw [dropWhile_append_all _ hw1] at hd
    simp only [List.dropWhile_cons, show isWsChar '=' = false from rfl, hdws,
      Bool.false_eq_true, if_false] at hd
    exact absurd (List.cons.inj hd).1 (word_ne (h2 d hdmem) '=' (by decide)).symm


theorem matchPartitionAt_fail_wordblock (ns name tail : List Char)
    (h2 : ∀ c ∈ ns, isWordChar c = true)
    (hn : name ≠ []) (hnw : ∀ c ∈ name, isWordChar c = true) :
    matchPartitionAt
      (ns ++ ('\n' :: '\n' :: '\t' :: (cs "partition " ++ (name ++ (' ' :: tail))))) =
      none := by
  cases hm : matchPartitionAt
      (ns ++ ('\n' :: '\n' :: '\t' :: (cs "partition " ++ (name ++ (' ' :: tail))))) with
  | none => rfl
  | some a =>
    obtain ⟨w1, pname, w2, M, hw1, hw1ne, hpw, hpne, hw2, he⟩ :=
      matchPartitionAt_sound_prefix hm
    rcases lt_trichotomy ns.length (cs "partition").length with hl | hl | hl
    · exact absurd (append_head_mem he hl) (by decide)
    · obtain ⟨hns, hrest⟩ := List.append_inj he hl
      have hd := congrArg (List.dropWhile isWsChar) hrest
      rw [show cs "partition " ++ (name ++ (' ' :: tail)) =
        'p' :: (cs "artition " ++ (name ++ (' ' :: tail))) from rfl] at hd
      simp only [List.dropWhile_cons, show isWsChar '\n' = true from rfl,
        show isWsChar '\t' = true from rfl, show isWsChar 'p' = false from rfl,
        if_true, Bool.false_eq_true, if_false] at hd
      rw [dropWhile_append_all _ hw1] at hd
      obtain ⟨q, qt, hq⟩ : ∃ q qt, pname = q :: qt := by
        cases pname with
        | nil => exact absurd rfl hpne
        | cons q qt => exact ⟨q, qt, rfl⟩
      rw [hq, List.cons_append, List.dropWhile_cons,
        if_neg (by rw [not_ws_of_word (hpw q (hq ▸ List.mem_cons_self q qt))]
                   exact Bool.false_ne_true)] at hd
      have E : cs "partition" ++ (' ' :: (name ++ (' ' :: tail))) =
          pname ++ (w2 ++ '=' :: M) := by
        rw [hq, List.cons_append]
        exact hd
      have ht := congrArg (List.takeWhile isWordChar) E
      rw [(takeWhile_append_stop (p := isWordChar) ' ' (name ++ (' ' :: tail))
        (by decide) (by decide)).1] at ht
      have hRt : List.takeWhile isWordChar (pname ++ (w2 ++ '=' :: M)) = pname := by
        cases hw2c : w2 with
        | nil =>
          rw [List.nil_append]
          exact (takeWhile_append_stop (p := isWordChar) '=' M hpw (by decide)).1
        | cons u ut =>
          have hu : isWordChar u = false :=
            not_word_of_ws (hw2 u (hw2c ▸ List.mem_cons_self u ut))
          rw [List.cons_append]
          exact (takeWhile_append_stop (p := isWordChar) u (ut ++ '=' :: M) hpw hu).1
      rw [hRt] at ht
      have E2 := (List.append_inj E (by rw [← ht])).2
      have hd2 := congrArg (List.dropWhile isWsChar) E2
      obtain ⟨n0, nt, hn0⟩ : ∃ n0 nt, name = n0 :: nt := by
        cases name with
        | nil => exact absurd rfl hn
        | cons n0 nt => exact ⟨n0, nt, rfl⟩
      have hn0w : isWordChar n0 = true := hnw n0 (hn0 ▸ List.mem_cons_self n0 nt)
      rw [hn0, List.cons_append] at hd2
      simp only [List.dropWhile_cons, show isWsChar ' ' = true from rfl, if_true,
        not_ws_of_word hn0w, Bool.false_eq_true, if_false] at hd2
      rw [dropWhile_append_all _ hw2] at hd2
      simp only [List.dropWhile_cons, show isWsChar '=' = false from rfl,
        Bool.false_eq_true, if_false] at hd2
      exact absurd (List.cons.inj hd2).1 (word_ne hn0w '=' (by decide))
    · obtain ⟨d, ds, hdmem, hM⟩ := append_eq_lit_gt he hl
      obtain ⟨x, xt, hx⟩ : ∃ x xt, w1 = x :: xt := by
        cases w1 with
        | nil => exact absurd rfl hw1ne
        | cons x xt => exact ⟨x, xt, rfl⟩
      rw [hx, List.cons_append] at hM
      have hxd := (List.cons.inj hM).1
      have hxws : isWsChar x = true := hw1 x (hx ▸ List.mem_cons_self x xt)
      rw [hxd, not_ws_of_word (h2 d hdmem)] at hxws
      cases hxws


theorem lookaheadOk_cons_ne {c : Char} (t : List Char) (h : ¬ c = '\n') :
    lookaheadOk (c :: t) = false := by
  unfold lookaheadOk
  split
  · rename_i heq
    exact List.noConfusion heq
  · rename_i x t2 heq
    exact absurd (List.cons.inj heq).1 h
  · rfl

theorem lazyBody_cons_of_not_la {c : Char} {t : List Char}
    (h : lookaheadOk (c :: t) = false) :
    lazyBody (c :: t) = (c :: (lazyBody t).1, (lazyBody t).2) := by
  rw [lazyBody, h]
  simp

theorem lazyBody_no_nl {l : List Char} (h : ∀ c ∈ l, ¬ c = '\n') :
    lazyBody l = (l, []) := by
  induction l with
  | nil => rfl
  | cons c t ih =>
    rw [lazyBody_cons_of_not_la (lookaheadOk_cons_ne t (h c (List.mem_cons_self c t))),
      ih (fun x hx => h x (List.mem_cons_of_mem c hx))]

theorem lazyBody_append_no_nl {l : List Char} (r : List Char) (h : ∀ c ∈ l, ¬ c = '\n') :
    lazyBody (l ++ r) = (l ++ (lazyBody r).1, (lazyBody r).2) := by
  induction l with
  | nil => simp
  | cons c t ih =>
    rw [List.cons_append,
      lazyBody_cons_of_not_la (lookaheadOk_cons_ne _ (h c (List.mem_cons_self c t))),
      ih (fun x hx => h x (List.mem_cons_of_mem c hx))]
    simp

theorem srcExpr_no_nl {v : List Char} (hvn : ∀ c ∈ v, ¬ c = '\n') :
    ∀ c ∈ srcExpr v, ¬ c = '\n' := by
  intro c hc
  rw [srcExpr] at hc
  rcases List.mem_append.1 hc with hc2 | hc2
  · rcases List.mem_append.1 hc2 with hc3 | hc3
    · exact (by decide : ∀ x ∈ cs "source = \"", ¬ x = '\n') c hc3
    · exact hvn c hc3
  · exact (by decide : ∀ x ∈
      cs "\" meta [IsParameterQuery=true, Type=\"Text\", IsParameterQueryRequired=true]",
      ¬ x = '\n') c hc2

theorem srcExpr_shape {v : List Char} (hv : v ≠ []) (hq : ∀ c ∈ v, c ≠ '"') :
    paramShape (srcExpr v) v := by
  refine ⟨[' '], [' '], [' '], [' '], cs ", Type=\"Text\", IsParameterQueryRequired=true",
    by decide, by decide, by decide, by decide, by decide, hv, hq, ?_⟩
  rw [srcExpr]
  rw [show cs "source = \"" = cs "source" ++ [' '] ++ ['='] ++ [' '] ++ ['"'] from by decide,
    show cs "\" meta [IsParameterQuery=true, Type=\"Text\", IsParameterQueryRequired=true]" =
      '"' :: ([' '] ++ cs "meta" ++ [' '] ++ cs "[IsParameterQuery=true" ++
        cs ", Type=\"Text\", IsParameterQueryRequired=true" ++ [']']) from by decide]
  simp [List.append_assoc]


theorem matchTableNameAt_fixture (name rest : List Char)
    (hn : name ≠ []) (hnw : ∀ c ∈ name, isWordChar c = true) :
    matchTableNameAt (cs "table " ++ (name ++ ('\n' :: rest))) = some name := by
  obtain ⟨n0, nt, hn0⟩ : ∃ n0 nt, name = n0 :: nt := by
    cases name with
    | nil => exact absurd rfl hn
    | cons n0 nt => exact ⟨n0, nt, rfl⟩
  have hn0w : isWordChar n0 = true := hnw n0 (hn0 ▸ List.mem_cons_self n0 nt)
  have e1 : List.takeWhile isWsChar (' ' :: (name ++ ('\n' :: rest))) = [' '] := by
    rw [hn0, List.cons_append]
    simp only [List.takeWhile_cons, show isWsChar ' ' = true from rfl, if_true,
      not_ws_of_word hn0w, Bool.false_eq_true, if_false]
  have e2 : List.dropWhile isWsChar (' ' :: (name ++ ('\n' :: rest))) =
      name ++ ('\n' :: rest) := by
    rw [hn0, List.cons_append]
    simp only [List.dropWhile_cons, show isWsChar ' ' = true from rfl, if_true,
      not_ws_of_word hn0w, Bool.false_eq_true, if_false]
  have e3 : List.takeWhile isWordChar (name ++ ('\n' :: rest)) = name :=
    (takeWhile_append_stop (p := isWordChar) '\n' rest hnw (by decide)).1
  unfold matchTableNameAt
  rw [show cs "table " ++ (name ++ ('\n' :: rest)) =
    cs "table" ++ (' ' :: (name ++ ('\n' :: rest))) from rfl, matchLit_append]
  dsimp only
  rw [e1, e2, e3]
  rw [if_neg (by simp), if_neg (by simp [isEmpty_false_of_ne hn])]

theorem tableNameSearch_fixture (name rest : List Char)
    (hn : name ≠ []) (hnw : ∀ c ∈ name, isWordChar c = true) :
    tableNameSearch (cs "table " ++ (name ++ ('\n' :: rest))) = some name := by
  unfold tableNameSearch
  rw [matchTableNameAt_fixture name rest hn hnw]

theorem partitionClause_norm (name v : List Char) :
    partitionClause name v =
      cs "partition" ++ (' ' :: (name ++ (' ' :: '=' :: ' ' :: 'm' :: '\n' :: '\t' ::
        (cs "mode: import" ++ ('\n' :: '\t' :: srcExpr v))))) := by
  rw [partitionClause]
  rw [show cs "partition " = cs "partition" ++ [' '] from rfl,
    show cs " = m\n\tmode: import\n\t" =
      [' ', '=', ' ', 'm', '\n', '\t'] ++ cs "mode: import" ++ ['\n', '\t'] from by decide]
  simp [List.append_assoc]


theorem matchPartitionAt_fixture (name v : List Char)
    (hn : name ≠ []) (hnw : ∀ c ∈ name, isWordChar c = true)
    (hvn : ∀ c ∈ v, ¬ c = '\n') :
    matchPartitionAt (partitionClause name v) =
      some (name, partitionClause name v, []) := by
  obtain ⟨n0, nt, hn0⟩ : ∃ n0 nt, name = n0 :: nt := by
    cases name with
    | nil => exact absurd rfl hn
    | cons n0 nt => exact ⟨n0, nt, rfl⟩
  have hn0w : isWordChar n0 = true := hnw n0 (hn0 ▸ List.mem_cons_self n0 nt)
  have e1 : List.takeWhile isWsChar (' ' :: (name ++ (' ' :: '=' :: ' ' :: 'm' :: '\n' ::
      '\t' :: (cs "mode: import" ++ ('\n' :: '\t' :: srcExpr v))))) = [' '] := by
    rw [hn0, List.cons_append]
    simp only [List.takeWhile_cons, show isWsChar ' ' = true from rfl, if_true,
      not_ws_of_word hn0w, Bool.false_eq_true, if_false]
  have e2 : List.dropWhile isWsChar (' ' :: (name ++ (' ' :: '=' :: ' ' :: 'm' :: '\n' ::
      '\t' :: (cs "mode: import" ++ ('\n' :: '\t' :: srcExpr v))))) =
      name ++ (' ' :: '=' :: ' ' :: 'm' :: '\n' :: '\t' ::
        (cs "mode: import" ++ ('\n' :: '\t' :: srcExpr v))) := by
    rw [hn0, List.cons_append]
    simp only [List.dropWhile_cons, show isWsChar ' ' = true from rfl, if_true,
      not_ws_of_word hn0w, Bool.false_eq_true, if_false]
  have e3 := takeWhile_append_stop (p := isWordChar) ' '
    ('=' :: ' ' :: 'm' :: '\n' :: '\t' :: (cs "mode: import" ++ ('\n' :: '\t' :: srcExpr v)))
    hnw (by decide)
  have e5 : List.takeWhile isWsChar (' ' :: '=' :: ' ' :: 'm' :: '\n' :: '\t' ::
      (cs "mode: import" ++ ('\n' :: '\t' :: srcExpr v))) = [' '] := by
    simp only [List.takeWhile_cons, show isWsChar ' ' = true from rfl, if_true,
      show isWsChar '=' = false from rfl, Bool.false_eq_true, if_false]
  have e6 : List.dropWhile isWsChar (' ' :: '=' :: ' ' :: 'm' :: '\n' :: '\t' ::
      (cs "mode: import" ++ ('\n' :: '\t' :: srcExpr v))) =
      '=' :: ' ' :: 'm' :: '\n' :: '\t' ::
        (cs "mode: import" ++ ('\n' :: '\t' :: srcExpr v)) := by
    simp only [List.dropWhile_cons, show isWsChar ' ' = true from rfl, if_true,
      show isWsChar '=' = false from rfl, Bool.false_eq_true, if_false]
  have e7 : List.takeWhile isWsChar (' ' :: 'm' :: '\n' :: '\t' ::
      (cs "mode: import" ++ ('\n' :: '\t' :: srcExpr v))) = [' '] := by
    simp only [List.takeWhile_cons, show isWsChar ' ' = true from rfl, if_true,
      show isWsChar 'm' = false from rfl, Bool.false_eq_true, if_false]
  have e8 : List.dropWhile isWsChar (' ' :: 'm' :: '\n' :: '\t' ::
      (cs "mode: import" ++ ('\n' :: '\t' :: srcExpr v))) =
      'm' :: '\n' :: '\t' :: (cs "mode: import" ++ ('\n' :: '\t' :: srcExpr v)) := by
    simp only [List.dropWhile_cons, show isWsChar ' ' = true from rfl, if_true,
      show isWsChar 'm' = false from rfl, Bool.false_eq_true, if_false]
  have e9 : List.takeWhile isWsChar ('\n' :: '\t' ::
      (cs "mode: import" ++ ('\n' :: '\t' :: srcExpr v))) = ['\n', '\t'] := by
    rw [show cs "mode: import" ++ ('\n' :: '\t' :: srcExpr v) =
      'm' :: (cs "ode: import" ++ ('\n' :: '\t' :: srcExpr v)) from rfl]
    simp only [List.takeWhile_cons, show isWsChar '\n' = true from rfl,
      show isWsChar '\t' = true from rfl, if_true,
      show isWsChar 'm' = false from rfl, Bool.false_eq_true, if_false]
  have e10 : List.dropWhile isWsChar ('\n' :: '\t' ::
      (cs "mode: import" ++ ('\n' :: '\t' :: srcExpr v))) =
      cs "mode: import" ++ ('\n' :: '\t' :: srcExpr v) := by
    rw [show cs "mode: import" ++ ('\n' :: '\t' :: srcExpr v) =
      'm' :: (cs "ode: import" ++ ('\n' :: '\t' :: srcExpr v)) from rfl]
    simp only [List.dropWhile_cons, show isWsChar '\n' = true from rfl,
      show isWsChar '\t' = true from rfl, if_true,
      show isWsChar 'm' = false from rfl, Bool.false_eq_true, if_false]
  have e12 : lazyBody (['\t'] ++ (cs "mode: import" ++ ('\n' :: '\t' :: srcExpr v))) =
      (['\t'] ++ (cs "mode: import" ++ ('\n' :: '\t' :: srcExpr v)), []) := by
    rw [show ['\t'] ++ (cs "mode: import" ++ ('\n' :: '\t' :: srcExpr v)) =
      ('\t' :: cs "mode: import") ++ ('\n' :: ('\t' :: srcExpr v)) from by simp]
    rw [lazyBody_append_no_nl _ (by decide)]
    have hla : lookaheadOk ('\n' :: ('\t' :: srcExpr v)) = false := rfl
    rw [lazyBody_cons_of_not_la hla]
    rw [lazyBody_no_nl (l := '\t' :: srcExpr v)
      (fun c hc => by
        rcases List.mem_cons.1 hc with rfl | hc2
        · decide
        · exact srcExpr_no_nl hvn c hc2)]
  conv_lhs => rw [partitionClause_norm]
  unfold matchPartitionAt
  rw [matchLit_append]
  dsimp only
  rw [e1, e2, e3.1, e3.2, e5, e6]
  simp only [List.isEmpty_cons, Bool.false_eq_true, if_false, isEmpty_false_of_ne hn,
    e7, e8, e9, e10, show splitLastNl ['\n', '\t'] = some ([], ['\t']) from rfl, e12]
  rw [partitionClause_norm]
  simp [List.append_assoc]


theorem paramTableFile_decomp (name v : List Char) :
    paramTableFile name v =
      (cs "table " ++ (name ++ cs "\n\n\t")) ++ partitionClause name v := by
  rw [paramTableFile]
  simp [List.append_assoc]

theorem partitionClause_decomp (name v : List Char) :
    partitionClause name v =
      cs "partition " ++ (name ++ (' ' :: (cs "= m\n\tmode: import\n\t" ++ srcExpr v))) := by
  rw [partitionClause,
    show cs " = m\n\tmode: import\n\t" = ' ' :: cs "= m\n\tmode: import\n\t" from rfl]
  simp [List.append_assoc]

theorem searchM_partition_fixture (name v : List Char)
    (hn : name ≠ []) (hnw : ∀ c ∈ name, isWordChar c = true)
    (hvn : ∀ c ∈ v, ¬ c = '\n') :
    searchM matchPartitionAt (paramTableFile name v) =
      some (name, partitionClause name v, []) := by
  rw [paramTableFile_decomp]
  have hskip : searchM matchPartitionAt
      ((cs "table " ++ (name ++ cs "\n\n\t")) ++ partitionClause name v) =
      searchM matchPartitionAt (partitionClause name v) := by
    apply searchM_append_none
    intro s2 hne hsuf
    rcases suffix_append_cases _ hsuf with hcase | ⟨S, hS1, hS2, hS3⟩
    · rcases suffix_append_cases _ hcase with hcase2 | ⟨S, hS1, hS2, hS3⟩
      · obtain ⟨c, t, rfl⟩ : ∃ c t, s2 = c :: t := by
          cases s2 with
          | nil => exact absurd rfl hne
          | cons c t => exact ⟨c, t, rfl⟩
        have hcmem : c ∈ cs "\n\n\t" := head_mem_of_suffix hcase2
        rw [List.cons_append]
        exact matchPartitionAt_fail_head _ (fun h => by
          rw [h] at hcmem; exact absurd hcmem (by decide))
      · subst hS3
        rw [List.append_assoc,
          show cs "\n\n\t" ++ partitionClause name v =
            '\n' :: '\n' :: '\t' :: partitionClause name v from rfl,
          partitionClause_decomp]
        exact matchPartitionAt_fail_wordblock S name _
          (fun c hc => hnw c (hS2.sublist.subset hc)) hn hnw
    · subst hS3
      obtain ⟨c, t, rfl⟩ : ∃ c t, S = c :: t := by
        cases S with
        | nil => exact absurd rfl hS1
        | cons c t => exact ⟨c, t, rfl⟩
      have hcmem : c ∈ cs "table " := head_mem_of_suffix hS2
      rw [List.append_assoc, List.cons_append]
      exact matchPartitionAt_fail_head _ (fun h => by
        rw [h] at hcmem; exact absurd hcmem (by decide))
  rw [hskip, searchM_self (matchPartitionAt_fixture name v hn hnw hvn)]


theorem replFuel_self (old new : List Char) (ho : old ≠ []) :
    replFuel old new old.length old = new := by
  obtain ⟨o, ot, rfl⟩ : ∃ o ot, old = o :: ot := by
    cases old with
    | nil => exact absurd rfl ho
    | cons o ot => exact ⟨o, ot, rfl⟩
  rw [show (o :: ot).length = ot.length + 1 from rfl, replFuel,
    if_pos (List.isPrefixOf_iff_prefix.2 List.prefix_rfl), List.drop_length]
  simp [replFuel]

theorem replFuel_prefix_skip (old new : List Char) (ho : old ≠ []) :
    ∀ (P : List Char), (∀ R, R ≠ [] → R <:+ P → ¬ (old <+: R ++ old)) →
      replFuel old new (P ++ old).length (P ++ old) = P ++ new := by
  intro P
  induction P with
  | nil =>
    intro h
    simp only [List.nil_append]
    exact replFuel_self old new ho
  | cons c P2 ih =>
    intro h
    have h1 : ¬ old <+: ((c :: P2) ++ old) := h (c :: P2) (by simp) List.suffix_rfl
    rw [List.cons_append] at h1 ⊢
    rw [show (c :: (P2 ++ old)).length = (P2 ++ old).length + 1 from rfl, replFuel,
      if_neg (fun hb => h1 (List.isPrefixOf_iff_prefix.1 hb)),
      ih (fun R hne hsuf => h R hne (hsuf.trans (List.suffix_cons c P2)))]
    rw [List.cons_append]

theorem strReplace_append_self (P old new : List Char) (ho : old ≠ [])
    (h : ∀ R, R ≠ [] → R <:+ P → ¬ (old <+: R ++ old)) :
    strReplace (P ++ old) old new = P ++ new := by
  rw [strReplace, if_neg (by simp [isEmpty_false_of_ne ho])]
  exact replFuel_prefix_skip old new ho P h


theorem partitionClause_not_prefix (name v R : List Char)
    (hnw : ∀ c ∈ name, isWordChar c = true)
    (hR : R ≠ []) (hsuf : R <:+ cs "table " ++ (name ++ cs "\n\n\t")) :
    ¬ (partitionClause name v <+: R ++ partitionClause name v) := by
  intro hpre
  obtain ⟨u, hu⟩ := hpre
  rw [partitionClause_decomp] at hu
  rcases suffix_append_cases _ hsuf with hcase | ⟨S, hS1, hS2, hS3⟩
  · rcases suffix_append_cases _ hcase with hcase2 | ⟨S, hS1, hS2, hS3⟩
    · obtain ⟨c, t, rfl⟩ : ∃ c t, R = c :: t := by
        cases R with
        | nil => exact absurd rfl hR
        | cons c t => exact ⟨c, t, rfl⟩
      have hcmem : c ∈ cs "\n\n\t" := head_mem_of_suffix hcase2
      have h2 : 'p' :: ((cs "artition " ++
          (name ++ (' ' :: (cs "= m\n\tmode: import\n\t" ++ srcExpr v)))) ++ u) =
          c :: (t ++ (cs "partition " ++
            (name ++ (' ' :: (cs "= m\n\tmode: import\n\t" ++ srcExpr v))))) := hu
      rw [← (List.cons.inj h2).1] at hcmem
      exact absurd hcmem (by decide)
    · subst hS3
      rw [List.append_assoc, List.append_assoc S] at hu
      have hu2 : cs "partition" ++ (' ' ::
          ((name ++ (' ' :: (cs "= m\n\tmode: import\n\t" ++ srcExpr v))) ++ u)) =
          S ++ ('\n' :: '\n' :: '\t' :: (cs "partition " ++
            (name ++ (' ' :: (cs "= m\n\tmode: import\n\t" ++ srcExpr v))))) := hu
      rcases lt_trichotomy S.length (cs "partition").length with hl | hl | hl
      · exact absurd (append_head_mem hu2.symm hl) (by decide)
      · obtain ⟨hS, htl⟩ := List.append_inj hu2.symm hl
        exact absurd (List.cons.inj htl.symm).1 (by decide)
      · have hu3 : cs "partition " ++
            ((name ++ (' ' :: (cs "= m\n\tmode: import\n\t" ++ srcExpr v))) ++ u) =
            S ++ ('\n' :: '\n' :: '\t' :: (cs "partition " ++
              (name ++ (' ' :: (cs "= m\n\tmode: import\n\t" ++ srcExpr v))))) := hu
        have hmem : (cs "partition ").get ⟨9, by decide⟩ ∈ S :=
          append_get_mem hu3 (by decide) hl
        rw [show (cs "partition ").get ⟨9, by decide⟩ = ' ' from rfl] at hmem
        exact absurd (hnw ' ' (hS2.sublist.subset hmem)) (by decide)
  · subst hS3
    obtain ⟨c, t, rfl⟩ : ∃ c t, S = c :: t := by
      cases S with
      | nil => exact absurd rfl hS1
      | cons c t => exact ⟨c, t, rfl⟩
    have hcmem : c ∈ cs "table " := head_mem_of_suffix hS2
    have h2 : 'p' :: ((cs "artition " ++
        (name ++ (' ' :: (cs "= m\n\tmode: import\n\t" ++ srcExpr v)))) ++ u) =
        c :: ((t ++ (name ++ cs "\n\n\t")) ++ (cs "partition " ++
          (name ++ (' ' :: (cs "= m\n\tmode: import\n\t" ++ srcExpr v))))) := hu
    rw [← (List.cons.inj h2).1] at hcmem
    exact absurd hcmem (by decide)

theorem strReplace_fixture (name v new2 : List Char)
    (hnw : ∀ c ∈ name, isWordChar c = true) :
    strReplace (paramTableFile name v) (partitionClause name v) new2 =
      (cs "table " ++ (name ++ cs "\n\n\t")) ++ new2 := by
  rw [paramTableFile_decomp]
  apply strReplace_append_self
  · intro h
    rw [partitionClause_decomp] at h
    exact List.noConfusion (show ('p' :: (cs "artition " ++
      (name ++ (' ' :: (cs "= m\n\tmode: import\n\t" ++ srcExpr v))))) = ([] : List Char)
      from h)
  · exact fun R hne hsuf => partitionClause_not_prefix name v R hnw hne hsuf


theorem update_parameter_in_table_fixture (name old V : List Char)
    (hn : name ≠ []) (hnw : ∀ c ∈ name, isWordChar c = true)
    (ho : old ≠ []) (hoq : ∀ c ∈ old, c ≠ '"') (hon : ∀ c ∈ old, ¬ c = '\n') :
    update_parameter_in_table (paramTableFile name old) name V =
      some (paramTableFile name V) := by
  have htn : tableNameSearch (paramTableFile name old) = some name := by
    rw [show paramTableFile name old = cs "table " ++
      (name ++ ('\n' :: ('\n' :: '\t' :: partitionClause name old))) from by
        rw [paramTableFile, List.append_assoc, List.append_assoc]
        rfl]
    exact tableNameSearch_fixture name ('\n' :: '\t' :: partitionClause name old) hn hnw
  have hg : ∃ trip, searchM matchParamAt (paramTableFile name old) = some trip := by
    have hm : matchParamAt (srcExpr old) = some (srcExpr old, old, []) := by
      have h2 := matchParamAt_complete [] (srcExpr_shape ho hoq)
      rw [List.append_nil] at h2
      exact h2
    have hsplit : paramTableFile name old =
        (cs "table " ++ name ++ cs "\n\n\t" ++ cs "partition " ++ name ++
          cs " = m\n\tmode: import\n\t") ++ srcExpr old := by
      rw [paramTableFile, partitionClause]
      simp [List.append_assoc]
    have hsome := searchM_isSome_append matchParamAt (cs "table " ++ name ++ cs "\n\n\t" ++
      cs "partition " ++ name ++ cs " = m\n\tmode: import\n\t") (srcExpr old) _ hm
    rw [← hsplit] at hsome
    exact Option.isSome_iff_exists.1 hsome
  obtain ⟨⟨g1, v1⟩, hgg⟩ := hg
  unfold update_parameter_in_table
  rw [htn]
  dsimp only
  rw [if_neg (fun hne => hne rfl), hgg]
  dsimp only
  rw [searchM_partition_fixture name old hn hnw hon]
  dsimp only
  show some (strReplace (paramTableFile name old) (partitionClause name old)
    (partitionClause name V)) = some (paramTableFile name V)
  rw [strReplace_fixture name old (partitionClause name V) hnw, ← paramTableFile_decomp]

theorem searchM_param_fixture (name v : List Char)
    (hnw : ∀ c ∈ name, isWordChar c = true)
    (hv : v ≠ []) (hvq : ∀ c ∈ v, c ≠ '"') :
    searchM matchParamAt (paramTableFile name v) = some (srcExpr v, v, []) := by
  have hdec : paramTableFile name v =
      (cs "table " ++ (name ++ (cs "\n\n\t" ++ (cs "partition " ++
        (name ++ cs " = m\n\tmode: import\n\t"))))) ++ srcExpr v := by
    rw [paramTableFile, partitionClause]
    simp [List.append_assoc]
  rw [hdec]
  have hskip : searchM matchParamAt
      ((cs "table " ++ (name ++ (cs "\n\n\t" ++ (cs "partition " ++
        (name ++ cs " = m\n\tmode: import\n\t"))))) ++ srcExpr v) =
      searchM matchParamAt (srcExpr v) := by
    apply searchM_append_none
    intro s2 hne hsuf
    rcases suffix_append_cases _ hsuf with hc1 | ⟨S, hS1, hS2, hS3⟩
    · rcases suffix_append_cases _ hc1 with hc2 | ⟨S, hS1, hS2, hS3⟩
      · rcases suffix_append_cases _ hc2 with hc3 | ⟨S, hS1, hS2, hS3⟩
        · rcases suffix_append_cases _ hc3 with hc4 | ⟨S, hS1, hS2, hS3⟩
          · rcases suffix_append_cases _ hc4 with hc5 | ⟨S, hS1, hS2, hS3⟩
            · obtain ⟨c, t, rfl⟩ : ∃ c t, s2 = c :: t := by
                cases s2 with
                | nil => exact absurd rfl hne
                | cons c t => exact ⟨c, t, rfl⟩
              have hcmem : c ∈ cs " = m\n\tmode: import\n\t" := head_mem_of_suffix hc5
              exact matchParamAt_fail_head _ (fun h => by
                rw [h] at hcmem; exact absurd hcmem (by decide))
            · subst hS3
              rw [List.append_assoc]
              exact matchParamAt_fail_wordblock2 S _
                (fun c hc => hnw c (hS2.sublist.subset hc))
          · subst hS3
            obtain ⟨c, t, rfl⟩ : ∃ c t, S = c :: t := by
              cases S with
              | nil => exact absurd rfl hS1
              | cons c t => exact ⟨c, t, rfl⟩
            have hcmem : c ∈ cs "partition " := head_mem_of_suffix hS2
            exact matchParamAt_fail_head _ (fun h => by
              rw [h] at hcmem; exact absurd hcmem (by decide))
        · subst hS3
          obtain ⟨c, t, rfl⟩ : ∃ c t, S = c :: t := by
            cases S with
            | nil => exact absurd rfl hS1
            | cons c t => exact ⟨c, t, rfl⟩
          have hcmem : c ∈ cs "\n\n\t" := head_mem_of_suffix hS2
          exact matchParamAt_fail_head _ (fun h => by
            rw [h] at hcmem; exact absurd hcmem (by decide))
      · subst hS3
        rw [List.append_assoc]
        exact matchParamAt_fail_wordblock1 S _
          (fun c hc => hnw c (hS2.sublist.subset hc))
    · subst hS3
      obtain ⟨c, t, rfl⟩ : ∃ c t, S = c :: t := by
        cases S with
        | nil => exact absurd rfl hS1
        | cons c t => exact ⟨c, t, rfl⟩
      have hcmem : c ∈ cs "table " := head_mem_of_suffix hS2
      exact matchParamAt_fail_head _ (fun h => by
        rw [h] at hcmem; exact absurd hcmem (by decide))
  rw [hskip]
  apply searchM_self
  have h2 := matchParamAt_complete [] (srcExpr_shape hv hvq)
  rw [List.append_nil] at h2
  exact h2

theorem extract_parameters_fixture (name v : List Char)
    (hn : name ≠ []) (hnw : ∀ c ∈ name, isWordChar c = true)
    (hv : v ≠ []) (hvq : ∀ c ∈ v, c ≠ '"') :
    extract_parameters_from_table (paramTableFile name v) = [(name, v)] := by
  have hfind : findAllParams (paramTableFile name v) = [v] := by
    rw [findAllParams, findAllGo, searchM_param_fixture name v hnw hv hvq]
    dsimp only
    rw [findAllGo_nil]
  have htn : tableNameSearch (paramTableFile name v) = some name := by
    rw [show paramTableFile name v = cs "table " ++
      (name ++ ('\n' :: ('\n' :: '\t' :: partitionClause name v))) from by
        rw [paramTableFile, List.append_assoc, List.append_assoc]
        rfl]
    exact tableNameSearch_fixture name ('\n' :: '\t' :: partitionClause name v) hn hnw
  rw [extract_parameters_from_table, hfind]
  rw [List.foldl_cons, htn]
  rfl

/-- C3 (amended).  Round trip on a canonical parameter table: writing a
nonempty quote-free value `V` with `update_parameter_in_table` rewrites the
partition clause in place, and reading the file back with
`extract_parameters_from_table` yields exactly `{name: V}`. -/
theorem update_extract_roundtrip (name old V : List Char)
    (hn : name ≠ []) (hnw : ∀ c ∈ name, isWordChar c = true)
    (ho : old ≠ []) (hoq : ∀ c ∈ old, c ≠ '"') (hon : ∀ c ∈ old, ¬ c = '\n')
    (hV : V ≠ []) (hVq : ∀ c ∈ V, c ≠ '"') :
    update_parameter_in_table (paramTableFile name old) name V =
      some (paramTableFile name V) ∧
    extract_parameters_from_table (paramTableFile name V) = [(name, V)] :=
  ⟨update_parameter_in_table_fixture name old V hn hnw ho hoq hon,
   extract_parameters_fixture name V hn hnw hV hVq⟩

/-- C3 counterexample: the empty value contains no double quote, yet the
round trip fails — the write succeeds (producing `source = ""`), but the
read-back finds no parameter because `parameter_pattern` requires a
nonempty value (`[^"]+`). -/
theorem update_extract_roundtrip_counterexample :
    update_parameter_in_table (paramTableFile (cs "City") (cs "OLD")) (cs "City") [] =
      some (paramTableFile (cs "City") []) ∧
    extract_parameters_from_table (paramTableFile (cs "City") []) = [] := by
  constructor
  · decide
  · decide

/-- C3 witness: the amended round trip at a concrete table. -/
theorem update_extract_roundtrip_witness :
    update_parameter_in_table (paramTableFile (cs "City") (cs "OLD")) (cs "City")
      (cs "NEW") = some (paramTableFile (cs "City") (cs "NEW")) ∧
    extract_parameters_from_table (paramTableFile (cs "City") (cs "NEW")) =
      [(cs "City", cs "NEW")] :=
  update_extract_roundtrip (cs "City") (cs "OLD") (cs "NEW") (by decide) (by decide)
    (by decide) (by decide) (by decide) (by decide) (by decide)

end PBIP
